import Mathlib

/-!
Verification of the triangle-pattern enumerator (src/triangles.go).

The Go program enumerates connected shapes of unit triangles on a triangular
lattice up to translation, rotation and reflection.  This file is a shallow
embedding of its core: the `triangle` cell type with its adjacency and
symmetry operations, the `pattern` shape type with its fingerprint
(`validateHash`), alignment, centering and equivalence test (`isEqual`), and
the recursive enumeration `generatePatterns`, together with proofs about them.

Machine integers (Go `int`) are modelled as `Int`; no arithmetic in the
program approaches overflow for the supported sizes.  Go strings are modelled
as `String` values built from explicit character lists; Go's `%d` formatting
is modelled by `intChars` below, and Go's byte-lexicographic string order by
`ltChars` (all characters involved are ASCII, where byte order and code-point
order agree).
-/

/-- Cell of the triangular lattice (struct `triangle` in src/triangles.go). -/
structure triangle where
  x : Int
  y : Int
  z : Int
deriving DecidableEq, Repr

/-- `newTriangle` constructor. -/
def newTriangle (x y z : Int) : triangle := ⟨x, y, z⟩

namespace triangle

/-- `triangle.getCopy`. -/
def getCopy (t : triangle) : triangle := newTriangle t.x t.y t.z

/-- `triangle.isEqual`: exact coordinate equality. -/
def isEqual (t other : triangle) : Bool :=
  t.x == other.x && t.y == other.y && t.z == other.z

/-- `triangle.getCoord`; the Go switch returns 0 for an axis outside 1..3. -/
def getCoord (t : triangle) (axis : Int) : Int :=
  match axis with
  | 1 => t.x
  | 2 => t.y
  | 3 => t.z
  | _ => 0

/-- `triangle.getNeighbourCoords`; `look` is the coordinate sum, and the Go
switch returns (0,0,0) for an axis outside 1..3. -/
def getNeighbourCoords (t : triangle) (axis : Int) : Int × Int × Int :=
  let look := t.x + t.y + t.z
  match axis with
  | 1 => (t.x, t.y - look, t.z - look)
  | 2 => (t.x - look, t.y, t.z - look)
  | 3 => (t.x - look, t.y - look, t.z)
  | _ => (0, 0, 0)

/-- `triangle.getNeighbour`. -/
def getNeighbour (t : triangle) (axis : Int) : triangle :=
  let c := t.getNeighbourCoords axis
  newTriangle c.1 c.2.1 c.2.2

/-- `triangle.getRotatedCoords`; the Go switch falls through to the identity
for an angle outside 1..5 (in particular angle 0 is the identity). -/
def getRotatedCoords (t : triangle) (angle : Int) : Int × Int × Int :=
  match angle with
  | 1 => (-t.y, -t.z, -t.x)
  | 2 => (t.z, t.x, t.y)
  | 3 => (-t.x, -t.y, -t.z)
  | 4 => (t.y, t.z, t.x)
  | 5 => (-t.z, -t.x, -t.y)
  | _ => (t.x, t.y, t.z)

/-- `triangle.getRotated`. -/
def getRotated (t : triangle) (angle : Int) : triangle :=
  let c := t.getRotatedCoords angle
  newTriangle c.1 c.2.1 c.2.2

/-- `triangle.getReflectedCoords`; identity for an axis outside 1..3. -/
def getReflectedCoords (t : triangle) (axis : Int) : Int × Int × Int :=
  match axis with
  | 1 => (-t.x, -t.z, -t.y)
  | 2 => (-t.z, -t.y, -t.x)
  | 3 => (-t.y, -t.x, -t.z)
  | _ => (t.x, t.y, t.z)

/-- `triangle.getReflected`. -/
def getReflected (t : triangle) (axis : Int) : triangle :=
  let c := t.getReflectedCoords axis
  newTriangle c.1 c.2.1 c.2.2

/-- `triangle.getShiftedCoords`; identity for an axis outside 1..3. -/
def getShiftedCoords (t : triangle) (s axis : Int) : Int × Int × Int :=
  match axis with
  | 1 => (t.x, t.y + s, t.z - s)
  | 2 => (t.x - s, t.y, t.z + s)
  | 3 => (t.x + s, t.y - s, t.z)
  | _ => (t.x, t.y, t.z)

/-- `triangle.getShifted`. -/
def getShifted (t : triangle) (s axis : Int) : triangle :=
  let c := t.getShiftedCoords s axis
  newTriangle c.1 c.2.1 c.2.2

end triangle

/-- A `pattern` is its `triangles` slice: the ordered list of cells.  The Go
struct additionally memoizes the fingerprint (`patternHash`/`validHash`); the
cache is modelled by the pure function `pattern.patternHash` below, which is
the value `validateHash` stores. -/
abbrev pattern := List triangle

/-- ASCII minus sign. -/
def minusChar : Char := Char.ofNat 45

/-- ASCII comma, the coordinate separator of `fmt.Sprintf("%d,%d,%d", ...)`. -/
def commaChar : Char := Char.ofNat 44

/-- ASCII space, the separator of `strings.Join(arr, " ")`. -/
def spaceChar : Char := Char.ofNat 32

/-- Decimal digit character (ASCII 48..57), as in Go's `%d` formatting. -/
def digitChar (n : Nat) : Char := Char.ofNat (48 + n)

/-- Decimal digit characters of a natural number, most significant first,
computed with explicit fuel (any fuel larger than the number is enough). -/
def natChars : Nat → Nat → List Char
  | 0, _ => []
  | fuel+1, n =>
    if n < 10 then [digitChar n]
    else natChars fuel (n / 10) ++ [digitChar (n % 10)]

/-- Decimal digit characters of a natural number, most significant first. -/
def natStr (n : Nat) : List Char := natChars (n + 1) n

/-- The character sequence Go's `%d` produces for an `int`: a minus sign for
negative values followed by the decimal digits, no leading zeros. -/
def intChars (i : Int) : List Char :=
  if i < 0 then minusChar :: natStr (-i).toNat else natStr i.toNat

/-- The "x,y,z" rendering of one cell used by `validateHash`
(`fmt.Sprintf("%d,%d,%d", ...)`). -/
def triangleChars (t : triangle) : List Char :=
  intChars t.x ++ commaChar :: (intChars t.y ++ commaChar :: intChars t.z)

/-- Go's byte-lexicographic string order (`<` on strings), on the character
lists of ASCII strings. -/
def ltChars : List Char → List Char → Bool
  | [], [] => false
  | [], _ :: _ => true
  | _ :: _, [] => false
  | a :: as, b :: bs =>
    if a.toNat < b.toNat then true
    else if b.toNat < a.toNat then false
    else ltChars as bs

/-- The non-strict order corresponding to `ltChars`; `sort.Strings` sorts
ascending with respect to it. -/
def leChars (a b : List Char) : Prop := ltChars b a = false

instance decLeChars : DecidableRel leChars :=
  fun a b => instDecidableEqBool (ltChars (id b) (id a)) false

/-- `strings.Join` with separator `" "`, on character lists. -/
def joinChars : List (List Char) → List Char
  | [] => []
  | [a] => a
  | a :: rest => a ++ spaceChar :: joinChars rest

namespace pattern

/-- The fingerprint `validateHash` computes and stores in `patternHash`:
every cell rendered as "x,y,z", the renderings sorted as strings
(`sort.Strings`), joined with single spaces. -/
def patternHash (p : pattern) : String :=
  String.mk (joinChars (List.insertionSort leChars (p.map triangleChars)))

/-- `pattern.getCopy`: a fresh pattern with copies of the cells, same order. -/
def getCopy (p : pattern) : pattern := p.map triangle.getCopy

/-- `pattern.contains`: linear scan with `triangle.isEqual`. -/
def contains (p : pattern) (t : triangle) : Bool :=
  p.any (fun u => triangle.isEqual u t)

/-- `pattern.addTriangle`: appends (and invalidates the cached hash, which the
pure model needs not track). -/
def addTriangle (p : pattern) (t : triangle) : pattern := p ++ [t]

/-- `pattern.getMinCoord`: 0 for an empty pattern, otherwise the running
minimum of the cells' coordinates along `axis`. -/
def getMinCoord (p : pattern) (axis : Int) : Int :=
  match p with
  | [] => 0
  | t :: ts =>
    ts.foldl
      (fun m u => if triangle.getCoord u axis < m then triangle.getCoord u axis else m)
      (triangle.getCoord t axis)

/-- `pattern.getMaxCoord`: 0 for an empty pattern, otherwise the running
maximum of the cells' coordinates along `axis`. -/
def getMaxCoord (p : pattern) (axis : Int) : Int :=
  match p with
  | [] => 0
  | t :: ts =>
    ts.foldl
      (fun m u => if m < triangle.getCoord u axis then triangle.getCoord u axis else m)
      (triangle.getCoord t axis)

/-- `pattern.getShifted`: shift every cell. -/
def getShifted (p : pattern) (s axis : Int) : pattern :=
  p.map (fun t => t.getShifted s axis)

/-- `pattern.getRotated`: rotate every cell. -/
def getRotated (p : pattern) (angle : Int) : pattern :=
  p.map (fun t => t.getRotated angle)

/-- `pattern.getReflected`: reflect every cell. -/
def getReflected (p : pattern) (axis : Int) : pattern :=
  p.map (fun t => t.getReflected axis)

/-- `pattern.getAligned`: the two dependent shifts of the Go switch.  The Go
code always calls it with `freeAxis = 3`; for any other value the Go function
returns a nil pointer (dead code), modelled here as the empty pattern. -/
def getAligned (p : pattern) (freeAxis : Int) : pattern :=
  match freeAxis with
  | 1 =>
    let aligned := getShifted p (getMaxCoord p 2) 3
    getShifted aligned (-(getMinCoord aligned 3)) 2
  | 2 =>
    let aligned := getShifted p (getMaxCoord p 3) 1
    getShifted aligned (-(getMinCoord aligned 1)) 3
  | 3 =>
    let aligned := getShifted p (getMaxCoord p 1) 2
    getShifted aligned (-(getMinCoord aligned 2)) 1
  | _ => []

/-- `pattern.getCentered`: shift along axis 2 by the truncated mean of the
axis-1 extremes, then along axis 1 by the negated truncated mean of the
updated axis-2 extremes.  Go's integer `/` truncates toward zero: `Int.tdiv`. -/
def getCentered (p : pattern) : pattern :=
  let mean1 := Int.tdiv (getMinCoord p 1 + getMaxCoord p 1) 2
  let c := getShifted p mean1 2
  let mean2 := Int.tdiv (getMinCoord c 2 + getMaxCoord c 2) 2
  getShifted c (-mean2) 1

/-- The rotation loop of `pattern.isEqual`: at each of the (up to 6) steps,
compare the aligned hash and the reflected-then-aligned hash of the rotated
pattern against the target hash, rotating by one step between iterations.
`freeAxis` is fixed to 3 in `isEqual`. -/
def isEqualLoop (pHash : String) (otherRotated : pattern) : Nat → Bool
  | 0 => false
  | n+1 =>
    if patternHash (getAligned otherRotated 3) = pHash then true
    else if patternHash (getAligned (getReflected otherRotated 3) 3) = pHash then true
    else isEqualLoop pHash (getRotated otherRotated 1) n

/-- `pattern.isEqual`: symmetry equivalence; `freeAxis := 3` as in the Go
code, six rotation steps, each tried plain and reflected. -/
def isEqual (p other : pattern) : Bool :=
  isEqualLoop (patternHash (getAligned p 3)) other 6

end pattern

/-- The inner `j` loop of `generatePatterns` over the stored patterns: the
result is `false` as soon as a stored pattern `isEqual` to the candidate is
found, `true` otherwise (`foundNewPattern` in the Go code). -/
def foundNewPattern : List pattern → pattern → Bool
  | [], _ => true
  | q :: rest, ns => if pattern.isEqual q ns then false else foundNewPattern rest ns

/-- The finalization step of `generatePatterns` at `toAdd = 1`: append the
centered candidate to the collection unless an equivalent pattern is stored. -/
def checkAndStore (ns : pattern) (pats : List pattern) : List pattern :=
  if foundNewPattern pats ns then pats ++ [pattern.getCentered ns] else pats

/-- The candidate cells of the general branch of `generatePatterns`: for each
cell of the sketch in order, its three neighbours in axis order 1, 2, 3. -/
def candList (sketch : pattern) : List triangle :=
  sketch.flatMap (fun u =>
    [triangle.getNeighbour u 1, triangle.getNeighbour u 2, triangle.getNeighbour u 3])

/-- The double loop of the general branch of `generatePatterns`: walk the
candidate cells, skip those already in the sketch, and hand each extended copy
of the sketch to `f` (recursion when `toAdd > 1`, finalization otherwise),
threading the result collection through. -/
def genLoop (sketch : pattern) (f : pattern → List pattern → List pattern) :
    List triangle → List pattern → List pattern
  | [], pats => pats
  | c :: rest, pats =>
    if pattern.contains sketch c then genLoop sketch f rest pats
    else genLoop sketch f rest (f (pattern.addTriangle (pattern.getCopy sketch) c) pats)

/-- `patternsCollection.generatePatterns`, with the collection threaded as an
explicit argument (the Go method mutates `pc.patterns`; the result here is the
collection after the call).  `toAdd` is a Go `int`; the program only ever
calls this with `toAdd ≥ 1`, on which `Nat` agrees with `int`, and the Go test
`toAdd > 1` (recurse) versus `toAdd ≤ 1` (finalize) is the match on `n+2`
versus `0`/`1` below. -/
def generatePatterns : Nat → pattern → List pattern → List pattern
  | toAdd, [], pats =>
    let sk := pattern.addTriangle [] (newTriangle 0 1 0)
    match toAdd with
    | n+2 => generatePatterns (n+1) sk pats
    | _ => pats ++ [sk]
  | toAdd, t :: ts, pats =>
    let sketch : pattern := t :: ts
    let f : pattern → List pattern → List pattern :=
      match toAdd with
      | n+2 => fun ns ps => generatePatterns (n+1) ns ps
      | _ => fun ns ps => checkAndStore ns ps
    if sketch.length ≤ 2 then
      f (pattern.addTriangle (pattern.getCopy sketch)
          (triangle.getNeighbour t (sketch.length : Int))) pats
    else
      genLoop sketch f (candList sketch) pats

/-- `minNumTriangles` constant. -/
def minNumTriangles : Int := 4

/-- `maxNumTriangles` constant. -/
def maxNumTriangles : Int := 16

/-- The decision core of `main`: read a requested count, report a validation
error when it is outside `minNumTriangles..maxNumTriangles` without
enumerating anything, otherwise run the enumeration on an empty sketch and an
empty collection (the prompt, directory creation and PNG rendering are I/O
outside the enumeration core). -/
def runMain (numTriangles : Int) : Except String (List pattern) :=
  if numTriangles < minNumTriangles ∨ numTriangles > maxNumTriangles then
    Except.error "Неправильное значение"
  else
    Except.ok (generatePatterns numTriangles.toNat [] [])

/-! ## Helper notions used by the proofs -/

/-- Coordinate sum of a cell; its sign encodes the triangle's orientation. -/
def sumT (t : triangle) : Int := t.x + t.y + t.z

/-- Componentwise translation of a cell by a vector (stored as a `triangle`). -/
def tadd (v t : triangle) : triangle := ⟨t.x + v.x, t.y + v.y, t.z + v.z⟩

/-- Translation of a whole pattern. -/
def ptrans (v : triangle) (p : pattern) : pattern := p.map (tadd v)

/-- `k`-fold application of the unit rotation to a cell. -/
def cellRotN : Nat → triangle → triangle
  | 0, t => t
  | k+1, t => cellRotN k (t.getRotated 1)

/-- `k`-fold application of `getRotated 1` to a pattern, as the loop in
`pattern.isEqual` produces it. -/
def rotN : Nat → pattern → pattern
  | 0, p => p
  | k+1, p => rotN k (pattern.getRotated p 1)

/-- Adjacency within a pattern: `b` is a member that is the neighbour of `a`
along one of the three axes. -/
def Adj (p : pattern) (a b : triangle) : Prop :=
  b ∈ p ∧ ∃ ax : Int, (ax = 1 ∨ ax = 2 ∨ ax = 3) ∧ b = triangle.getNeighbour a ax

/-- A pattern is connected: every cell reaches every other by repeatedly
stepping to a neighbour that is also in the pattern. -/
def Connected (p : pattern) : Prop :=
  ∀ a ∈ p, ∀ b ∈ p, Relation.ReflTransGen (Adj p) a b

/-- The sketches the enumerator can build from a start sketch: each step
appends the neighbour of some member along one of the three axes. -/
inductive Reaches : pattern → pattern → Prop
  | refl (p : pattern) : Reaches p p
  | step (p q : pattern) (t : triangle) (ax : Int) :
      Reaches p q → t ∈ q → (ax = 1 ∨ ax = 2 ∨ ax = 3) →
      Reaches p (q ++ [triangle.getNeighbour t ax])

/-! ## Cell-level facts -/

theorem getCopy_cell (t : triangle) : triangle.getCopy t = t := rfl

theorem getCopy_pat (p : pattern) : pattern.getCopy p = p := by
  induction p with
  | nil => rfl
  | cons t ts ih =>
    rw [pattern.getCopy, List.map_cons, getCopy_cell]
    rw [pattern.getCopy] at ih
    rw [ih]

theorem addTriangle_copy (p : pattern) (c : triangle) :
    pattern.addTriangle (pattern.getCopy p) c = p ++ [c] := by
  rw [getCopy_pat, pattern.addTriangle]

theorem getShifted_one (t : triangle) (s : Int) :
    t.getShifted s 1 = newTriangle t.x (t.y + s) (t.z - s) := rfl

theorem getShifted_two (t : triangle) (s : Int) :
    t.getShifted s 2 = newTriangle (t.x - s) t.y (t.z + s) := rfl

theorem getShifted_three (t : triangle) (s : Int) :
    t.getShifted s 3 = newTriangle (t.x + s) (t.y - s) t.z := rfl

theorem getRotated_one (t : triangle) :
    t.getRotated 1 = newTriangle (-t.y) (-t.z) (-t.x) := rfl

theorem getReflected_three (t : triangle) :
    t.getReflected 3 = newTriangle (-t.y) (-t.x) (-t.z) := rfl

theorem tadd_tadd (u v : triangle) (t : triangle) :
    tadd u (tadd v t) = tadd ⟨v.x + u.x, v.y + u.y, v.z + u.z⟩ t := by
  simp [tadd, triangle.mk.injEq]; omega

theorem tadd_zero (t : triangle) : tadd ⟨0, 0, 0⟩ t = t := by
  simp [tadd]

theorem sumT_tadd (v t : triangle) : sumT (tadd v t) = sumT t + sumT v := by
  simp [sumT, tadd]; ring

/-- Shifting a cell along axis 1, 2 or 3 is translation by the corresponding
lattice vector. -/
theorem getShifted_eq_tadd_one (t : triangle) (s : Int) :
    t.getShifted s 1 = tadd ⟨0, s, -s⟩ t := by
  rw [getShifted_one]; simp [tadd, newTriangle, triangle.mk.injEq]; omega

theorem getShifted_eq_tadd_two (t : triangle) (s : Int) :
    t.getShifted s 2 = tadd ⟨-s, 0, s⟩ t := by
  rw [getShifted_two]; simp [tadd, newTriangle, triangle.mk.injEq]; omega

theorem getShifted_eq_tadd_three (t : triangle) (s : Int) :
    t.getShifted s 3 = tadd ⟨s, -s, 0⟩ t := by
  rw [getShifted_three]; simp [tadd, newTriangle, triangle.mk.injEq]; omega

/-- The unit rotation is linear with respect to translation. -/
theorem getRotated_one_tadd (v t : triangle) :
    (tadd v t).getRotated 1 = tadd (v.getRotated 1) (t.getRotated 1) := by
  simp [getRotated_one, tadd, newTriangle, triangle.mk.injEq]; omega

/-- The axis-3 reflection is linear with respect to translation. -/
theorem getReflected_three_tadd (v t : triangle) :
    (tadd v t).getReflected 3 = tadd (v.getReflected 3) (t.getReflected 3) := by
  simp [getReflected_three, tadd, newTriangle, triangle.mk.injEq]; omega

theorem sumT_getRotated_one (t : triangle) : sumT (t.getRotated 1) = -sumT t := by
  simp [sumT, getRotated_one, newTriangle]; ring

theorem sumT_getReflected_three (t : triangle) : sumT (t.getReflected 3) = -sumT t := by
  simp [sumT, getReflected_three, newTriangle]; ring

theorem cellRotN_tadd (k : Nat) (v t : triangle) :
    cellRotN k (tadd v t) = tadd (cellRotN k v) (cellRotN k t) := by
  induction k generalizing v t with
  | zero => rfl
  | succ k ih => rw [cellRotN, getRotated_one_tadd, ih]; rfl

theorem sumT_cellRotN_zero (k : Nat) (v : triangle) (hv : sumT v = 0) :
    sumT (cellRotN k v) = 0 := by
  induction k generalizing v with
  | zero => exact hv
  | succ k ih =>
    rw [cellRotN]
    exact ih _ (by rw [sumT_getRotated_one, hv, neg_zero])

/-- Six unit rotations are the identity on a cell. -/
theorem cellRotN_six (t : triangle) : cellRotN 6 t = t := by
  show ((((((t.getRotated 1).getRotated 1).getRotated 1).getRotated 1).getRotated
    1).getRotated 1) = t
  simp [getRotated_one, newTriangle]

theorem rotN_add (j k : Nat) (p : pattern) : rotN j (rotN k p) = rotN (k + j) p := by
  induction k generalizing p with
  | zero => rw [Nat.zero_add]; rfl
  | succ k ih => rw [rotN, ih, Nat.succ_add]; rfl

theorem rotN_map (k : Nat) (p : pattern) : rotN k p = p.map (cellRotN k) := by
  induction k generalizing p with
  | zero => simp [rotN, cellRotN]
  | succ k ih =>
    rw [rotN, ih, pattern.getRotated, List.map_map]
    rfl

/-- Six rotation steps of the `isEqual` loop return to the start pattern. -/
theorem rotN_six (p : pattern) : rotN 6 p = p := by
  rw [rotN_map]
  induction p with
  | nil => rfl
  | cons t ts ih => rw [List.map_cons, cellRotN_six, ih]

/-! ## Minimum and maximum coordinate facts -/

/-- The running-minimum step of `getMinCoord`. -/
def minStep (axis : Int) (m : Int) (u : triangle) : Int :=
  if triangle.getCoord u axis < m then triangle.getCoord u axis else m

/-- The running-maximum step of `getMaxCoord`. -/
def maxStep (axis : Int) (m : Int) (u : triangle) : Int :=
  if m < triangle.getCoord u axis then triangle.getCoord u axis else m

theorem getMinCoord_cons (t : triangle) (ts : List triangle) (a : Int) :
    pattern.getMinCoord (t :: ts) a = ts.foldl (minStep a) (triangle.getCoord t a) := rfl

theorem getMaxCoord_cons (t : triangle) (ts : List triangle) (a : Int) :
    pattern.getMaxCoord (t :: ts) a = ts.foldl (maxStep a) (triangle.getCoord t a) := rfl

theorem foldlMin_le_init (a : Int) :
    ∀ (ts : List triangle) (init : Int), ts.foldl (minStep a) init ≤ init := by
  intro ts
  induction ts with
  | nil => intro init; simp
  | cons u us ih =>
    intro init
    rw [List.foldl_cons]
    refine le_trans (ih _) ?_
    unfold minStep; split <;> omega

theorem foldlMin_le_mem (a : Int) :
    ∀ (ts : List triangle) (init : Int), ∀ u ∈ ts,
      ts.foldl (minStep a) init ≤ triangle.getCoord u a := by
  intro ts
  induction ts with
  | nil => intro init u hu; simp at hu
  | cons v vs ih =>
    intro init u hu
    rw [List.foldl_cons]
    rcases List.mem_cons.mp hu with h | h
    · subst h
      refine le_trans (foldlMin_le_init a vs _) ?_
      unfold minStep; split <;> omega
    · exact ih _ u h

theorem foldlMin_attained (a : Int) :
    ∀ (ts : List triangle) (init : Int),
      ts.foldl (minStep a) init = init ∨
        ∃ u ∈ ts, ts.foldl (minStep a) init = triangle.getCoord u a := by
  intro ts
  induction ts with
  | nil => intro init; left; rfl
  | cons v vs ih =>
    intro init
    rw [List.foldl_cons]
    rcases ih (minStep a init v) with h | ⟨u, hu, h⟩
    · rw [h]
      unfold minStep
      split
      · right; exact ⟨v, List.mem_cons_self v vs, rfl⟩
      · left; rfl
    · right; exact ⟨u, List.mem_cons_of_mem _ hu, h⟩

theorem foldlMax_le_init (a : Int) :
    ∀ (ts : List triangle) (init : Int), init ≤ ts.foldl (maxStep a) init := by
  intro ts
  induction ts with
  | nil => intro init; simp
  | cons u us ih =>
    intro init
    rw [List.foldl_cons]
    refine le_trans ?_ (ih _)
    unfold maxStep; split <;> omega

theorem foldlMax_le_mem (a : Int) :
    ∀ (ts : List triangle) (init : Int), ∀ u ∈ ts,
      triangle.getCoord u a ≤ ts.foldl (maxStep a) init := by
  intro ts
  induction ts with
  | nil => intro init u hu; simp at hu
  | cons v vs ih =>
    intro init u hu
    rw [List.foldl_cons]
    rcases List.mem_cons.mp hu with h | h
    · subst h
      refine le_trans ?_ (foldlMax_le_init a vs _)
      unfold maxStep; split <;> omega
    · exact ih _ u h

theorem foldlMax_attained (a : Int) :
    ∀ (ts : List triangle) (init : Int),
      ts.foldl (maxStep a) init = init ∨
        ∃ u ∈ ts, ts.foldl (maxStep a) init = triangle.getCoord u a := by
  intro ts
  induction ts with
  | nil => intro init; left; rfl
  | cons v vs ih =>
    intro init
    rw [List.foldl_cons]
    rcases ih (maxStep a init v) with h | ⟨u, hu, h⟩
    · rw [h]
      unfold maxStep
      split
      · right; exact ⟨v, List.mem_cons_self v vs, rfl⟩
      · left; rfl
    · right; exact ⟨u, List.mem_cons_of_mem _ hu, h⟩

theorem getMinCoord_le (p : pattern) (a : Int) (t : triangle) (ht : t ∈ p) :
    pattern.getMinCoord p a ≤ triangle.getCoord t a := by
  match p with
  | [] => cases ht
  | u :: us =>
    rw [getMinCoord_cons]
    rcases List.mem_cons.mp ht with h | h
    · subst h; exact foldlMin_le_init a us _
    · exact foldlMin_le_mem a us _ t h

theorem getMinCoord_attained (p : pattern) (a : Int) (hp : p ≠ []) :
    ∃ t ∈ p, pattern.getMinCoord p a = triangle.getCoord t a := by
  match p with
  | [] => exact absurd rfl hp
  | u :: us =>
    rw [getMinCoord_cons]
    rcases foldlMin_attained a us (triangle.getCoord u a) with h | ⟨t, ht, h⟩
    · exact ⟨u, List.mem_cons_self u us, h⟩
    · exact ⟨t, List.mem_cons_of_mem _ ht, h⟩

theorem getMaxCoord_le (p : pattern) (a : Int) (t : triangle) (ht : t ∈ p) :
    triangle.getCoord t a ≤ pattern.getMaxCoord p a := by
  match p with
  | [] => cases ht
  | u :: us =>
    rw [getMaxCoord_cons]
    rcases List.mem_cons.mp ht with h | h
    · subst h; exact foldlMax_le_init a us _
    · exact foldlMax_le_mem a us _ t h

theorem getMaxCoord_attained (p : pattern) (a : Int) (hp : p ≠ []) :
    ∃ t ∈ p, pattern.getMaxCoord p a = triangle.getCoord t a := by
  match p with
  | [] => exact absurd rfl hp
  | u :: us =>
    rw [getMaxCoord_cons]
    rcases foldlMax_attained a us (triangle.getCoord u a) with h | ⟨t, ht, h⟩
    · exact ⟨u, List.mem_cons_self u us, h⟩
    · exact ⟨t, List.mem_cons_of_mem _ ht, h⟩

/-- `getMinCoord` only depends on the multiset of cells. -/
theorem getMinCoord_perm {p q : pattern} (h : p.Perm q) (a : Int) :
    pattern.getMinCoord p a = pattern.getMinCoord q a := by
  match p, q with
  | [], q => rw [h.nil_eq]
  | t :: ts, [] => exact absurd h.symm.nil_eq (by simp)
  | t :: ts, u :: us =>
    refine le_antisymm ?_ ?_
    · obtain ⟨w, hw, hweq⟩ := getMinCoord_attained (u :: us) a (by simp)
      rw [hweq]
      exact getMinCoord_le _ a w (h.mem_iff.mpr hw)
    · obtain ⟨w, hw, hweq⟩ := getMinCoord_attained (t :: ts) a (by simp)
      rw [hweq]
      exact getMinCoord_le _ a w (h.mem_iff.mp hw)

/-- `getMaxCoord` only depends on the multiset of cells. -/
theorem getMaxCoord_perm {p q : pattern} (h : p.Perm q) (a : Int) :
    pattern.getMaxCoord p a = pattern.getMaxCoord q a := by
  match p, q with
  | [], q => rw [h.nil_eq]
  | t :: ts, [] => exact absurd h.symm.nil_eq (by simp)
  | t :: ts, u :: us =>
    refine le_antisymm ?_ ?_
    · obtain ⟨w, hw, hweq⟩ := getMaxCoord_attained (t :: ts) a (by simp)
      rw [hweq]
      exact getMaxCoord_le _ a w (h.mem_iff.mp hw)
    · obtain ⟨w, hw, hweq⟩ := getMaxCoord_attained (u :: us) a (by simp)
      rw [hweq]
      exact getMaxCoord_le _ a w (h.mem_iff.mpr hw)

theorem getCoord_tadd_one (v t : triangle) :
    triangle.getCoord (tadd v t) 1 = triangle.getCoord t 1 + v.x := rfl

theorem getCoord_tadd_two (v t : triangle) :
    triangle.getCoord (tadd v t) 2 = triangle.getCoord t 2 + v.y := rfl

theorem getCoord_tadd_three (v t : triangle) :
    triangle.getCoord (tadd v t) 3 = triangle.getCoord t 3 + v.z := rfl

theorem foldlMin_map_affine (a : Int) (f : triangle → triangle) (c : Int)
    (hf : ∀ t, triangle.getCoord (f t) a = triangle.getCoord t a + c) :
    ∀ (ts : List triangle) (init : Int),
      (ts.map f).foldl (minStep a) (init + c) = ts.foldl (minStep a) init + c := by
  intro ts
  induction ts with
  | nil => intro init; rfl
  | cons u us ih =>
    intro init
    rw [List.map_cons, List.foldl_cons, List.foldl_cons]
    have hstep : minStep a (init + c) (f u) = minStep a init u + c := by
      unfold minStep
      rw [hf u]
      split <;> split <;> omega
    rw [hstep, ih]

theorem foldlMax_map_affine (a : Int) (f : triangle → triangle) (c : Int)
    (hf : ∀ t, triangle.getCoord (f t) a = triangle.getCoord t a + c) :
    ∀ (ts : List triangle) (init : Int),
      (ts.map f).foldl (maxStep a) (init + c) = ts.foldl (maxStep a) init + c := by
  intro ts
  induction ts with
  | nil => intro init; rfl
  | cons u us ih =>
    intro init
    rw [List.map_cons, List.foldl_cons, List.foldl_cons]
    have hstep : maxStep a (init + c) (f u) = maxStep a init u + c := by
      unfold maxStep
      rw [hf u]
      split <;> split <;> omega
    rw [hstep, ih]

theorem getMinCoord_map_affine (a : Int) (f : triangle → triangle) (c : Int)
    (hf : ∀ t, triangle.getCoord (f t) a = triangle.getCoord t a + c)
    (p : pattern) (hp : p ≠ []) :
    pattern.getMinCoord (p.map f) a = pattern.getMinCoord p a + c := by
  match p with
  | [] => exact absurd rfl hp
  | t :: ts =>
    rw [List.map_cons, getMinCoord_cons, getMinCoord_cons, hf t,
      foldlMin_map_affine a f c hf]

theorem getMaxCoord_map_affine (a : Int) (f : triangle → triangle) (c : Int)
    (hf : ∀ t, triangle.getCoord (f t) a = triangle.getCoord t a + c)
    (p : pattern) (hp : p ≠ []) :
    pattern.getMaxCoord (p.map f) a = pattern.getMaxCoord p a + c := by
  match p with
  | [] => exact absurd rfl hp
  | t :: ts =>
    rw [List.map_cons, getMaxCoord_cons, getMaxCoord_cons, hf t,
      foldlMax_map_affine a f c hf]

/-! ## Translation algebra on patterns -/

theorem ptrans_nil (v : triangle) : ptrans v [] = [] := rfl

theorem ptrans_cons (v t : triangle) (ts : List triangle) :
    ptrans v (t :: ts) = tadd v t :: ptrans v ts := rfl

theorem ptrans_ptrans (u v : triangle) (p : pattern) :
    ptrans u (ptrans v p) = ptrans ⟨v.x + u.x, v.y + u.y, v.z + u.z⟩ p := by
  induction p with
  | nil => rfl
  | cons t ts ih => rw [ptrans_cons, ptrans_cons, ptrans_cons, ih, tadd_tadd]

theorem ptrans_zero (p : pattern) : ptrans ⟨0, 0, 0⟩ p = p := by
  induction p with
  | nil => rfl
  | cons t ts ih => rw [ptrans_cons, ih, tadd_zero]

theorem ptrans_cancel (v : triangle) (p : pattern) :
    ptrans ⟨-v.x, -v.y, -v.z⟩ (ptrans v p) = p := by
  rw [ptrans_ptrans]
  have h : (⟨v.x + -v.x, v.y + -v.y, v.z + -v.z⟩ : triangle) = ⟨0, 0, 0⟩ := by
    simp [triangle.mk.injEq]
  rw [h, ptrans_zero]

theorem ptrans_congr_vec {u v : triangle} (h : u = v) (p : pattern) :
    ptrans u p = ptrans v p := by rw [h]

theorem pat_getShifted_one (p : pattern) (s : Int) :
    pattern.getShifted p s 1 = ptrans ⟨0, s, -s⟩ p := by
  unfold pattern.getShifted ptrans
  induction p with
  | nil => rfl
  | cons t ts ih => rw [List.map_cons, List.map_cons, getShifted_eq_tadd_one, ih]

theorem pat_getShifted_two (p : pattern) (s : Int) :
    pattern.getShifted p s 2 = ptrans ⟨-s, 0, s⟩ p := by
  unfold pattern.getShifted ptrans
  induction p with
  | nil => rfl
  | cons t ts ih => rw [List.map_cons, List.map_cons, getShifted_eq_tadd_two, ih]

theorem pat_getShifted_three (p : pattern) (s : Int) :
    pattern.getShifted p s 3 = ptrans ⟨s, -s, 0⟩ p := by
  unfold pattern.getShifted ptrans
  induction p with
  | nil => rfl
  | cons t ts ih => rw [List.map_cons, List.map_cons, getShifted_eq_tadd_three, ih]

/-- The alignment used by `isEqual` (`freeAxis = 3`) in closed form: translate
by minus the axis-1 maximum, minus the axis-2 minimum, and their sum. -/
theorem getAligned_three_eq (p : pattern) :
    pattern.getAligned p 3 =
      ptrans ⟨-(pattern.getMaxCoord p 1), -(pattern.getMinCoord p 2),
        pattern.getMaxCoord p 1 + pattern.getMinCoord p 2⟩ p := by
  match p with
  | [] => rfl
  | t :: ts =>
    show pattern.getShifted (pattern.getShifted (t :: ts) (pattern.getMaxCoord (t :: ts) 1) 2)
        (-(pattern.getMinCoord (pattern.getShifted (t :: ts) (pattern.getMaxCoord (t :: ts) 1) 2) 2)) 1 =
      _
    rw [pat_getShifted_two]
    have hmin : pattern.getMinCoord
        (ptrans ⟨-(pattern.getMaxCoord (t :: ts) 1), 0, pattern.getMaxCoord (t :: ts) 1⟩ (t :: ts)) 2 =
        pattern.getMinCoord (t :: ts) 2 := by
      have := getMinCoord_map_affine 2
        (tadd ⟨-(pattern.getMaxCoord (t :: ts) 1), 0, pattern.getMaxCoord (t :: ts) 1⟩) 0
        (fun u => getCoord_tadd_two _ u) (t :: ts) (by simp)
      rw [add_zero] at this
      exact this
    rw [pat_getShifted_one, hmin, ptrans_ptrans]
    refine ptrans_congr_vec ?_ _
    simp [triangle.mk.injEq]

/-- Alignment with `freeAxis = 3` absorbs any zero-sum translation. -/
theorem getAligned_three_ptrans (v : triangle) (p : pattern) (hv : sumT v = 0) :
    pattern.getAligned (ptrans v p) 3 = pattern.getAligned p 3 := by
  match p with
  | [] => rfl
  | t :: ts =>
    rw [getAligned_three_eq, getAligned_three_eq]
    have hmax : pattern.getMaxCoord (ptrans v (t :: ts)) 1 =
        pattern.getMaxCoord (t :: ts) 1 + v.x :=
      getMaxCoord_map_affine 1 (tadd v) v.x (fun u => getCoord_tadd_one v u) (t :: ts) (by simp)
    have hmin : pattern.getMinCoord (ptrans v (t :: ts)) 2 =
        pattern.getMinCoord (t :: ts) 2 + v.y :=
      getMinCoord_map_affine 2 (tadd v) v.y (fun u => getCoord_tadd_two v u) (t :: ts) (by simp)
    rw [hmax, hmin, ptrans_ptrans]
    refine ptrans_congr_vec ?_ _
    have hz : v.z = -v.x - v.y := by
      have : v.x + v.y + v.z = 0 := hv
      omega
    simp [triangle.mk.injEq]
    omega

/-! ## Rotations and reflections versus translations -/

theorem getReflected_three_cell_invol (t : triangle) :
    (t.getReflected 3).getReflected 3 = t := by
  simp [getReflected_three, newTriangle]

theorem getReflected_three_pat_invol (p : pattern) :
    pattern.getReflected (pattern.getReflected p 3) 3 = p := by
  unfold pattern.getReflected
  rw [List.map_map]
  induction p with
  | nil => rfl
  | cons t ts ih =>
    rw [List.map_cons, ih]
    show (t.getReflected 3).getReflected 3 :: ts = t :: ts
    rw [getReflected_three_cell_invol]

theorem getRotated_one_pat_ptrans (v : triangle) (p : pattern) :
    pattern.getRotated (ptrans v p) 1 = ptrans (v.getRotated 1) (pattern.getRotated p 1) := by
  induction p with
  | nil => rfl
  | cons t ts ih =>
    rw [ptrans_cons, pattern.getRotated, List.map_cons, getRotated_one_tadd,
      pattern.getRotated, List.map_cons, ptrans_cons]
    rw [pattern.getRotated, pattern.getRotated] at ih
    rw [ih]

theorem getReflected_three_pat_ptrans (v : triangle) (p : pattern) :
    pattern.getReflected (ptrans v p) 3 = ptrans (v.getReflected 3) (pattern.getReflected p 3) := by
  induction p with
  | nil => rfl
  | cons t ts ih =>
    rw [ptrans_cons, pattern.getReflected, List.map_cons, getReflected_three_tadd,
      pattern.getReflected, List.map_cons, ptrans_cons]
    rw [pattern.getReflected, pattern.getReflected] at ih
    rw [ih]

theorem rotN_ptrans (k : Nat) (v : triangle) (p : pattern) :
    rotN k (ptrans v p) = ptrans (cellRotN k v) (rotN k p) := by
  induction k generalizing v p with
  | zero => rfl
  | succ k ih =>
    rw [rotN, getRotated_one_pat_ptrans, ih]
    rfl

/-- The dihedral exchange rule at cell level: a unit rotation after the axis-3
reflection equals the reflection after five unit rotations. -/
theorem rot_one_refl_three_cell (t : triangle) :
    (t.getReflected 3).getRotated 1 = (cellRotN 5 t).getReflected 3 := by
  have h5 : cellRotN 5 t =
      ((((t.getRotated 1).getRotated 1).getRotated 1).getRotated 1).getRotated 1 := rfl
  rw [h5]
  simp [getRotated_one, getReflected_three, newTriangle]

theorem rot_one_refl_three_pat (p : pattern) :
    pattern.getRotated (pattern.getReflected p 3) 1 =
      pattern.getReflected (rotN 5 p) 3 := by
  rw [rotN_map]
  induction p with
  | nil => rfl
  | cons t ts ih =>
    rw [pattern.getReflected, pattern.getRotated, List.map_cons, List.map_cons,
      List.map_cons, pattern.getReflected, List.map_cons, rot_one_refl_three_cell]
    rw [pattern.getReflected, pattern.getRotated, pattern.getReflected] at ih
    rw [ih]

theorem rotN_mod (m : Nat) (p : pattern) : rotN m p = rotN (m % 6) p := by
  induction m using Nat.strong_induction_on generalizing p with
  | _ m ih =>
    by_cases h : m < 6
    · rw [Nat.mod_eq_of_lt h]
    · have h6 : m = 6 + (m - 6) := by omega
      rw [h6]
      have : rotN (6 + (m - 6)) p = rotN (m - 6) (rotN 6 p) := (rotN_add (m - 6) 6 p).symm
      rw [this, rotN_six, ih (m - 6) (by omega), Nat.add_mod_left]

/-- Rotating a reflected pattern is reflecting some rotation of it. -/
theorem rotN_refl_three (k : Nat) :
    ∃ j < 6, ∀ p : pattern,
      rotN k (pattern.getReflected p 3) = pattern.getReflected (rotN j p) 3 := by
  induction k with
  | zero => exact ⟨0, by omega, fun p => rfl⟩
  | succ k ih =>
    obtain ⟨j, hj, hspec⟩ := ih
    refine ⟨(5 + j) % 6, Nat.mod_lt _ (by omega), fun p => ?_⟩
    rw [rotN, rot_one_refl_three_pat, hspec, rotN_add, rotN_mod]

/-- Centering is a zero-sum translation of the pattern. -/
theorem getCentered_eq_ptrans (p : pattern) :
    ∃ v : triangle, sumT v = 0 ∧ pattern.getCentered p = ptrans v p := by
  obtain ⟨m1, m2, h⟩ : ∃ m1 m2, pattern.getCentered p =
      pattern.getShifted (pattern.getShifted p m1 2) (-m2) 1 := ⟨_, _, rfl⟩
  rw [h, pat_getShifted_two, pat_getShifted_one, ptrans_ptrans]
  refine ⟨_, ?_, rfl⟩
  show (-m1 + 0) + (0 + -m2) + (m1 + - -m2) = 0
  omega

/-! ## Characterization of the equivalence test -/

theorem bool_eq_of_iff {a b : Bool} (h : a = true ↔ b = true) : a = b := by
  cases a <;> cases b <;> simp_all

theorem isEqualLoop_iff (pH : String) :
    ∀ (n : Nat) (o : pattern),
      pattern.isEqualLoop pH o n = true ↔
        ∃ k, k < n ∧
          (pattern.patternHash (pattern.getAligned (rotN k o) 3) = pH ∨
            pattern.patternHash (pattern.getAligned (pattern.getReflected (rotN k o) 3) 3) = pH) := by
  intro n
  induction n with
  | zero =>
    intro o
    simp [pattern.isEqualLoop]
  | succ n ih =>
    intro o
    rw [pattern.isEqualLoop]
    split
    · next h1 =>
      constructor
      · intro _
        exact ⟨0, Nat.succ_pos n, Or.inl h1⟩
      · intro _
        rfl
    · next h1 =>
      split
      · next h2 =>
        constructor
        · intro _
          exact ⟨0, Nat.succ_pos n, Or.inr h2⟩
        · intro _
          rfl
      · next h2 =>
        rw [ih (pattern.getRotated o 1)]
        constructor
        · rintro ⟨k, hk, hP⟩
          exact ⟨k + 1, Nat.succ_lt_succ hk, hP⟩
        · rintro ⟨k, hk, hP⟩
          match k with
          | 0 =>
            rcases hP with h | h
            · exact absurd h h1
            · exact absurd h h2
          | k + 1 =>
            exact ⟨k, Nat.lt_of_succ_lt_succ hk, hP⟩

theorem isEqual_iff (p q : pattern) :
    pattern.isEqual p q = true ↔
      ∃ k, k < 6 ∧
        (pattern.patternHash (pattern.getAligned (rotN k q) 3) =
            pattern.patternHash (pattern.getAligned p 3) ∨
          pattern.patternHash (pattern.getAligned (pattern.getReflected (rotN k q) 3) 3) =
            pattern.patternHash (pattern.getAligned p 3)) := by
  rw [pattern.isEqual]
  exact isEqualLoop_iff _ 6 q

/-- The equivalence test ignores any zero-sum translation of its second
argument. -/
theorem isEqual_ptrans_right (p q : pattern) (v : triangle) (hv : sumT v = 0) :
    pattern.isEqual p (ptrans v q) = pattern.isEqual p q := by
  apply bool_eq_of_iff
  rw [isEqual_iff, isEqual_iff]
  have key : ∀ k : Nat,
      pattern.getAligned (rotN k (ptrans v q)) 3 = pattern.getAligned (rotN k q) 3 := by
    intro k
    rw [rotN_ptrans]
    exact getAligned_three_ptrans _ _ (sumT_cellRotN_zero k v hv)
  have keyR : ∀ k : Nat,
      pattern.getAligned (pattern.getReflected (rotN k (ptrans v q)) 3) 3 =
        pattern.getAligned (pattern.getReflected (rotN k q) 3) 3 := by
    intro k
    rw [rotN_ptrans, getReflected_three_pat_ptrans]
    refine getAligned_three_ptrans _ _ ?_
    rw [sumT_getReflected_three, sumT_cellRotN_zero k v hv, neg_zero]
  constructor
  · rintro ⟨k, hk, h | h⟩
    · exact ⟨k, hk, Or.inl (by rw [key k] at h; exact h)⟩
    · exact ⟨k, hk, Or.inr (by rw [keyR k] at h; exact h)⟩
  · rintro ⟨k, hk, h | h⟩
    · exact ⟨k, hk, Or.inl (by rw [key k]; exact h)⟩
    · exact ⟨k, hk, Or.inr (by rw [keyR k]; exact h)⟩

/-- The equivalence test ignores any zero-sum translation of its first
argument. -/
theorem isEqual_ptrans_left (p q : pattern) (v : triangle) (hv : sumT v = 0) :
    pattern.isEqual (ptrans v p) q = pattern.isEqual p q := by
  rw [pattern.isEqual, pattern.isEqual, getAligned_three_ptrans v p hv]

theorem isEqual_centered_right (p q : pattern) :
    pattern.isEqual p (pattern.getCentered q) = pattern.isEqual p q := by
  obtain ⟨v, hv, h⟩ := getCentered_eq_ptrans q
  rw [h, isEqual_ptrans_right p q v hv]

theorem isEqual_centered_left (p q : pattern) :
    pattern.isEqual (pattern.getCentered p) q = pattern.isEqual p q := by
  obtain ⟨v, hv, h⟩ := getCentered_eq_ptrans p
  rw [h, isEqual_ptrans_left p q v hv]

theorem isEqual_refl (p : pattern) : pattern.isEqual p p = true :=
  (isEqual_iff p p).mpr ⟨0, by omega, Or.inl rfl⟩

/-! ## The decimal rendering is injective -/

theorem natChars_congr : ∀ (f f' n : Nat), n < f → n < f' → natChars f n = natChars f' n := by
  intro f
  induction f with
  | zero => intro f' n h; omega
  | succ g ih =>
    intro f' n h h'
    match f' with
    | 0 => omega
    | g' + 1 =>
      rw [natChars, natChars]
      by_cases h10 : n < 10
      · rw [if_pos h10, if_pos h10]
      · rw [if_neg h10, if_neg h10]
        have hdiv : n / 10 < n := Nat.div_lt_self (by omega) (by omega)
        rw [ih g' (n / 10) (by omega) (by omega)]

theorem natStr_eq (n : Nat) :
    natStr n = if n < 10 then [digitChar n] else natStr (n / 10) ++ [digitChar (n % 10)] := by
  rw [natStr, natChars]
  by_cases h10 : n < 10
  · rw [if_pos h10, if_pos h10]
  · rw [if_neg h10, if_neg h10]
    have hdiv : n / 10 < n := Nat.div_lt_self (by omega) (by omega)
    rw [natChars_congr n (n / 10 + 1) (n / 10) (by omega) (by omega)]
    rfl

theorem digitChar_toNat (d : Nat) (h : d < 10) : (digitChar d).toNat = 48 + d := by
  interval_cases d <;> decide

/-- Decimal decoding, a left inverse of `natStr`. -/
def decodeNat (l : List Char) : Nat :=
  l.foldl (fun acc c => 10 * acc + (c.toNat - 48)) 0

theorem decodeNat_append_digit (a : List Char) (c : Char) :
    decodeNat (a ++ [c]) = 10 * decodeNat a + (c.toNat - 48) := by
  unfold decodeNat
  rw [List.foldl_append]
  rfl

theorem decodeNat_natStr : ∀ n : Nat, decodeNat (natStr n) = n := by
  intro n
  induction n using Nat.strong_induction_on with
  | _ n ih =>
    rw [natStr_eq]
    by_cases h10 : n < 10
    · rw [if_pos h10]
      show 10 * 0 + ((digitChar n).toNat - 48) = n
      rw [digitChar_toNat n h10]
      omega
    · rw [if_neg h10]
      have hdiv : n / 10 < n := Nat.div_lt_self (by omega) (by omega)
      rw [decodeNat_append_digit, ih (n / 10) hdiv, digitChar_toNat (n % 10) (by omega)]
      omega

theorem natStr_inj {m n : Nat} (h : natStr m = natStr n) : m = n := by
  have := congrArg decodeNat h
  rwa [decodeNat_natStr, decodeNat_natStr] at this

theorem natStr_digits : ∀ n : Nat, ∀ c ∈ natStr n, 48 ≤ c.toNat ∧ c.toNat ≤ 57 := by
  intro n
  induction n using Nat.strong_induction_on with
  | _ n ih =>
    intro c hc
    rw [natStr_eq] at hc
    by_cases h10 : n < 10
    · rw [if_pos h10] at hc
      rcases List.mem_singleton.mp hc with rfl
      rw [digitChar_toNat n h10]
      omega
    · rw [if_neg h10] at hc
      have hdiv : n / 10 < n := Nat.div_lt_self (by omega) (by omega)
      rcases List.mem_append.mp hc with h | h
      · exact ih (n / 10) hdiv c h
      · rcases List.mem_singleton.mp h with rfl
        rw [digitChar_toNat (n % 10) (by omega)]
        omega

theorem natStr_ne_nil (n : Nat) : natStr n ≠ [] := by
  rw [natStr_eq]
  by_cases h10 : n < 10
  · rw [if_pos h10]; simp
  · rw [if_neg h10]; simp

theorem minusChar_toNat : minusChar.toNat = 45 := by decide

theorem commaChar_toNat : commaChar.toNat = 44 := by decide

theorem spaceChar_toNat : spaceChar.toNat = 32 := by decide

theorem intChars_members (i : Int) :
    ∀ c ∈ intChars i, c.toNat = 45 ∨ (48 ≤ c.toNat ∧ c.toNat ≤ 57) := by
  intro c hc
  unfold intChars at hc
  by_cases hneg : i < 0
  · rw [if_pos hneg] at hc
    rcases List.mem_cons.mp hc with rfl | h
    · exact Or.inl minusChar_toNat
    · exact Or.inr (natStr_digits _ c h)
  · rw [if_neg hneg] at hc
    exact Or.inr (natStr_digits _ c hc)

theorem intChars_ne_nil (i : Int) : intChars i ≠ [] := by
  unfold intChars
  by_cases hneg : i < 0
  · rw [if_pos hneg]; simp
  · rw [if_neg hneg]; exact natStr_ne_nil _

theorem intChars_inj : ∀ {i j : Int}, intChars i = intChars j → i = j := by
  intro i j h
  have headDigit : ∀ m : Nat, ∃ c cs, natStr m = c :: cs ∧ 48 ≤ c.toNat := by
    intro m
    match hm : natStr m with
    | [] => exact absurd hm (natStr_ne_nil m)
    | c :: cs =>
      exact ⟨c, cs, rfl, (natStr_digits m c (by rw [hm]; simp)).1⟩
  unfold intChars at h
  by_cases hi : i < 0 <;> by_cases hj : j < 0
  · rw [if_pos hi, if_pos hj] at h
    have htail : natStr (-i).toNat = natStr (-j).toNat := by
      injection h
    have := natStr_inj htail
    omega
  · rw [if_pos hi, if_neg hj] at h
    obtain ⟨c, cs, hcs, hge⟩ := headDigit j.toNat
    rw [hcs] at h
    have : minusChar = c := by injection h
    rw [← this, minusChar_toNat] at hge
    omega
  · rw [if_neg hi, if_pos hj] at h
    obtain ⟨c, cs, hcs, hge⟩ := headDigit i.toNat
    rw [hcs] at h
    have : c = minusChar := by injection h
    rw [this, minusChar_toNat] at hge
    omega
  · rw [if_neg hi, if_neg hj] at h
    have := natStr_inj h
    omega

/-! ## Separator splitting and join injectivity -/

theorem append_sep_inj {sep : Char} :
    ∀ (a a' r r' : List Char), sep ∉ a → sep ∉ a' →
      a ++ sep :: r = a' ++ sep :: r' → a = a' ∧ r = r' := by
  intro a
  induction a with
  | nil =>
    intro a' r r' _ ha' h
    match a' with
    | [] =>
      refine ⟨rfl, ?_⟩
      rw [List.nil_append, List.nil_append] at h
      injection h
    | c :: as' =>
      rw [List.nil_append, List.cons_append] at h
      have hc : sep = c := by injection h
      exact absurd (hc ▸ List.mem_cons_self c as') ha'
  | cons c as ih =>
    intro a' r r' ha ha' h
    match a' with
    | [] =>
      rw [List.cons_append, List.nil_append] at h
      have hc : c = sep := by injection h
      exact absurd (hc ▸ List.mem_cons_self c as) (hc ▸ ha)
    | c' :: as' =>
      rw [List.cons_append, List.cons_append] at h
      have hc : c = c' := by injection h
      have htail : as ++ sep :: r = as' ++ sep :: r' := by injection h
      obtain ⟨h1, h2⟩ := ih as' r r' (fun hm => ha (List.mem_cons_of_mem c hm))
        (fun hm => ha' (List.mem_cons_of_mem c' hm)) htail
      exact ⟨by rw [hc, h1], h2⟩

theorem commaChar_notin_intChars (i : Int) : commaChar ∉ intChars i := by
  intro hmem
  rcases intChars_members i commaChar hmem with h | h
  · rw [commaChar_toNat] at h; omega
  · rw [commaChar_toNat] at h; omega

theorem spaceChar_notin_intChars (i : Int) : spaceChar ∉ intChars i := by
  intro hmem
  rcases intChars_members i spaceChar hmem with h | h
  · rw [spaceChar_toNat] at h; omega
  · rw [spaceChar_toNat] at h; omega

theorem triangleChars_inj : Function.Injective triangleChars := by
  intro t u h
  unfold triangleChars at h
  obtain ⟨hx, hrest⟩ := append_sep_inj _ _ _ _
    (commaChar_notin_intChars t.x) (commaChar_notin_intChars u.x) h
  obtain ⟨hy, hz⟩ := append_sep_inj _ _ _ _
    (commaChar_notin_intChars t.y) (commaChar_notin_intChars u.y) hrest
  have ex : t.x = u.x := intChars_inj hx
  have ey : t.y = u.y := intChars_inj hy
  have ez : t.z = u.z := intChars_inj hz
  cases t; cases u
  simp_all

theorem triangleChars_ne_nil (t : triangle) : triangleChars t ≠ [] := by
  unfold triangleChars
  simp

theorem spaceChar_notin_triangleChars (t : triangle) : spaceChar ∉ triangleChars t := by
  intro hmem
  unfold triangleChars at hmem
  rcases List.mem_append.mp hmem with h | h
  · exact spaceChar_notin_intChars t.x h
  · rcases List.mem_cons.mp h with hc | h
    · have := congrArg Char.toNat hc
      rw [spaceChar_toNat, commaChar_toNat] at this
      omega
    · rcases List.mem_append.mp h with h | h
      · exact spaceChar_notin_intChars t.y h
      · rcases List.mem_cons.mp h with hc | h
        · have := congrArg Char.toNat hc
          rw [spaceChar_toNat, commaChar_toNat] at this
          omega
        · exact spaceChar_notin_intChars t.z h

theorem joinChars_nil : joinChars [] = [] := rfl

theorem joinChars_single (a : List Char) : joinChars [a] = a := rfl

theorem joinChars_cons_cons (a b : List Char) (r : List (List Char)) :
    joinChars (a :: b :: r) = a ++ spaceChar :: joinChars (b :: r) := rfl

theorem joinChars_inj :
    ∀ (l₁ l₂ : List (List Char)),
      (∀ a ∈ l₁, a ≠ [] ∧ spaceChar ∉ a) → (∀ a ∈ l₂, a ≠ [] ∧ spaceChar ∉ a) →
      joinChars l₁ = joinChars l₂ → l₁ = l₂ := by
  intro l₁
  induction l₁ with
  | nil =>
    intro l₂ h1 h2 h
    match l₂ with
    | [] => rfl
    | [a] =>
      rw [joinChars_nil, joinChars_single] at h
      exact absurd h.symm (h2 a (by simp)).1
    | a :: b :: r =>
      rw [joinChars_nil, joinChars_cons_cons] at h
      simp at h
  | cons a l ih =>
    intro l₂ h1 h2 h
    match l, l₂ with
    | [], [] =>
      rw [joinChars_single, joinChars_nil] at h
      exact absurd h (h1 a (by simp)).1
    | [], [a'] =>
      rw [joinChars_single, joinChars_single] at h
      rw [h]
    | [], a' :: b' :: r' =>
      rw [joinChars_single, joinChars_cons_cons] at h
      have hsp : spaceChar ∈ a := by
        rw [h]
        exact List.mem_append_right a' (List.mem_cons_self _ _)
      exact absurd hsp (h1 a (by simp)).2
    | b :: r, [] =>
      rw [joinChars_cons_cons, joinChars_nil] at h
      simp at h
    | b :: r, [a'] =>
      rw [joinChars_cons_cons, joinChars_single] at h
      have hsp : spaceChar ∈ a' := by
        rw [← h]
        exact List.mem_append_right a (List.mem_cons_self _ _)
      exact absurd hsp (h2 a' (by simp)).2
    | b :: r, a' :: b' :: r' =>
      rw [joinChars_cons_cons, joinChars_cons_cons] at h
      obtain ⟨hhead, htail⟩ := append_sep_inj _ _ _ _
        (h1 a (by simp)).2 (h2 a' (by simp)).2 h
      have := ih (b' :: r')
        (fun x hx => h1 x (List.mem_cons_of_mem a hx))
        (fun x hx => h2 x (List.mem_cons_of_mem a' hx))
        htail
      rw [hhead, this]

/-! ## The byte-lexicographic order is a linear order -/

theorem ltChars_asymm : ∀ a b : List Char, ltChars a b = true → ltChars b a = false := by
  intro a
  induction a with
  | nil =>
    intro b h
    match b with
    | [] => exact absurd h (by rw [ltChars]; simp)
    | c :: bs => rfl
  | cons c as ih =>
    intro b h
    match b with
    | [] => exact absurd h (by rw [ltChars]; simp)
    | d :: bs =>
      rw [ltChars] at h ⊢
      by_cases h1 : c.toNat < d.toNat
      · rw [if_neg (by omega), if_pos h1]
      · rw [if_neg h1] at h
        by_cases h2 : d.toNat < c.toNat
        · rw [if_pos h2] at h
          exact absurd h (by simp)
        · rw [if_neg h2] at h
          rw [if_neg (by omega), if_neg (by omega)]
          exact ih bs h

theorem ltChars_eq_of_both_false :
    ∀ a b : List Char, ltChars a b = false → ltChars b a = false → a = b := by
  intro a
  induction a with
  | nil =>
    intro b h1 h2
    match b with
    | [] => rfl
    | c :: bs => exact absurd h1 (by rw [ltChars]; simp)
  | cons c as ih =>
    intro b h1 h2
    match b with
    | [] => exact absurd h2 (by rw [ltChars]; simp)
    | d :: bs =>
      rw [ltChars] at h1 h2
      by_cases hc : c.toNat < d.toNat
      · rw [if_pos hc] at h1
        exact absurd h1 (by simp)
      · by_cases hd : d.toNat < c.toNat
        · rw [if_pos hd] at h2
          exact absurd h2 (by simp)
        · rw [if_neg hc, if_neg (by omega)] at h1
          rw [if_neg hd, if_neg (by omega)] at h2
          have hn : c.toNat = d.toNat := by omega
          have hchar : c = d := Char.ext (by exact UInt32.ext hn)
          have htail : as = bs := ih bs h1 h2
          rw [hchar, htail]

theorem ltChars_trans :
    ∀ a b c : List Char, ltChars a b = true → ltChars b c = true → ltChars a c = true := by
  intro a
  induction a with
  | nil =>
    intro b c h1 h2
    match b, c with
    | [], _ => exact absurd h1 (by rw [ltChars]; simp)
    | _ :: _, [] => exact absurd h2 (by rw [ltChars]; simp)
    | _ :: _, _ :: _ => rfl
  | cons x as ih =>
    intro b c h1 h2
    match b, c with
    | [], _ => exact absurd h1 (by rw [ltChars]; simp)
    | _ :: _, [] => exact absurd h2 (by rw [ltChars]; simp)
    | y :: bs, z :: cs =>
      rw [ltChars] at h1 h2 ⊢
      by_cases hxy : x.toNat < y.toNat
      · by_cases hyz : y.toNat < z.toNat
        · rw [if_pos (by omega)]
        · rw [if_neg hyz] at h2
          by_cases hzy : z.toNat < y.toNat
          · rw [if_pos hzy] at h2
            exact absurd h2 (by simp)
          · rw [if_pos (by omega)]
      · rw [if_neg hxy] at h1
        by_cases hyx : y.toNat < x.toNat
        · rw [if_pos hyx] at h1
          exact absurd h1 (by simp)
        · rw [if_neg hyx] at h1
          by_cases hyz : y.toNat < z.toNat
          · rw [if_pos (by omega)]
          · rw [if_neg hyz] at h2
            by_cases hzy : z.toNat < y.toNat
            · rw [if_pos hzy] at h2
              exact absurd h2 (by simp)
            · rw [if_neg hzy] at h2
              rw [if_neg (by omega), if_neg (by omega)]
              exact ih bs cs h1 h2

instance : IsTotal (List Char) leChars :=
  ⟨fun a b => by
    unfold leChars
    cases h : ltChars b a
    · exact Or.inl rfl
    · exact Or.inr (ltChars_asymm b a h)⟩

instance : IsAntisymm (List Char) leChars :=
  ⟨fun a b h1 h2 => ltChars_eq_of_both_false a b h2 h1⟩

instance : IsTrans (List Char) leChars :=
  ⟨fun a b c hab hbc => by
    unfold leChars at *
    cases hca : ltChars c a
    · rfl
    · exfalso
      cases hbc2 : ltChars b c
      · have : b = c := ltChars_eq_of_both_false b c hbc2 hbc
        rw [this] at hab
        rw [hab] at hca
        simp at hca
      · have : ltChars b a = true := ltChars_trans b c a hbc2 hca
        rw [this] at hab
        simp at hab⟩

/-! ## The fingerprint determines the multiset of cells -/

theorem triangleChars_facts (l : List (List Char)) (p : pattern)
    (hl : ∀ a ∈ l, a ∈ p.map triangleChars) :
    ∀ a ∈ l, a ≠ [] ∧ spaceChar ∉ a := by
  intro a ha
  obtain ⟨t, _, rfl⟩ := List.mem_map.mp (hl a ha)
  exact ⟨triangleChars_ne_nil t, spaceChar_notin_triangleChars t⟩

/-- Two patterns have the same fingerprint exactly when they hold the same
cells with the same multiplicities. -/
theorem patternHash_eq_iff (p q : pattern) :
    pattern.patternHash p = pattern.patternHash q ↔ p.Perm q := by
  unfold pattern.patternHash
  constructor
  · intro h
    have hjoin : joinChars (List.insertionSort leChars (p.map triangleChars)) =
        joinChars (List.insertionSort leChars (q.map triangleChars)) := by
      injection h
    have hsorts : List.insertionSort leChars (p.map triangleChars) =
        List.insertionSort leChars (q.map triangleChars) :=
      joinChars_inj _ _
        (triangleChars_facts _ p (fun a ha => (List.mem_insertionSort leChars).mp ha))
        (triangleChars_facts _ q (fun a ha => (List.mem_insertionSort leChars).mp ha))
        hjoin
    have hperm : (p.map triangleChars).Perm (q.map triangleChars) :=
      ((List.perm_insertionSort leChars (p.map triangleChars)).symm.trans
        (hsorts ▸ List.perm_insertionSort leChars (q.map triangleChars)))
    have hmult : ((p.map triangleChars : List (List Char)) : Multiset (List Char)) =
        ((q.map triangleChars : List (List Char)) : Multiset (List Char)) :=
      Multiset.coe_eq_coe.mpr hperm
    rw [← Multiset.map_coe, ← Multiset.map_coe] at hmult
    exact Multiset.coe_eq_coe.mp (Multiset.map_injective triangleChars_inj hmult)
  · intro hperm
    have hmapperm : (p.map triangleChars).Perm (q.map triangleChars) := hperm.map _
    have hsortperm : (List.insertionSort leChars (p.map triangleChars)).Perm
        (List.insertionSort leChars (q.map triangleChars)) :=
      ((List.perm_insertionSort leChars _).trans hmapperm).trans
        (List.perm_insertionSort leChars _).symm
    have hsorts : List.insertionSort leChars (p.map triangleChars) =
        List.insertionSort leChars (q.map triangleChars) :=
      List.eq_of_perm_of_sorted hsortperm
        (List.sorted_insertionSort leChars _) (List.sorted_insertionSort leChars _)
    rw [hsorts]

/-! ## Symmetry of the equivalence test -/

theorem hashAlign_perm {p q : pattern} (h : p.Perm q) :
    pattern.patternHash (pattern.getAligned p 3) =
      pattern.patternHash (pattern.getAligned q 3) := by
  rw [getAligned_three_eq, getAligned_three_eq, getMaxCoord_perm h 1, getMinCoord_perm h 2]
  exact (patternHash_eq_iff _ _).mpr (h.map _)

theorem rotN_perm {p q : pattern} (h : p.Perm q) (n : Nat) : (rotN n p).Perm (rotN n q) := by
  rw [rotN_map, rotN_map]
  exact h.map _

theorem refl_three_perm {p q : pattern} (h : p.Perm q) :
    (pattern.getReflected p 3).Perm (pattern.getReflected q 3) := h.map _

theorem perm_of_ptrans_perm {u w : triangle} {X Y : pattern}
    (h : (ptrans u X).Perm (ptrans w Y)) :
    X.Perm (ptrans ⟨w.x - u.x, w.y - u.y, w.z - u.z⟩ Y) := by
  have h2 : (ptrans ⟨-u.x, -u.y, -u.z⟩ (ptrans u X)).Perm
      (ptrans ⟨-u.x, -u.y, -u.z⟩ (ptrans w Y)) := h.map _
  rw [ptrans_cancel, ptrans_ptrans] at h2
  have hvec : (⟨w.x + -u.x, w.y + -u.y, w.z + -u.z⟩ : triangle) =
      ⟨w.x - u.x, w.y - u.y, w.z - u.z⟩ := by
    simp [triangle.mk.injEq]
    omega
  rwa [hvec] at h2

/-- If two aligned patterns agree as multisets, the originals agree up to a
zero-sum translation. -/
theorem perm_unalign {X Y : pattern}
    (h : (pattern.getAligned X 3).Perm (pattern.getAligned Y 3)) :
    ∃ δ : triangle, sumT δ = 0 ∧ X.Perm (ptrans δ Y) := by
  rw [getAligned_three_eq, getAligned_three_eq] at h
  refine ⟨_, ?_, perm_of_ptrans_perm h⟩
  dsimp only [sumT]
  omega

theorem rotN_inverse (k : Nat) (hk : k < 6) (q : pattern) :
    rotN ((6 - k) % 6) (rotN k q) = q := by
  rw [rotN_add, rotN_mod]
  have : (k + (6 - k) % 6) % 6 = 0 := by omega
  rw [this]
  rfl

/-- `isEqual` is symmetric. -/
theorem isEqual_symm {p q : pattern} (h : pattern.isEqual p q = true) :
    pattern.isEqual q p = true := by
  rw [isEqual_iff] at h
  obtain ⟨k, hk, hcase⟩ := h
  rcases hcase with hA | hB
  · -- the matching transform was a plain rotation
    have hperm : (pattern.getAligned (rotN k q) 3).Perm (pattern.getAligned p 3) :=
      (patternHash_eq_iff _ _).mp hA
    obtain ⟨δ, hδ, h2⟩ := perm_unalign hperm
    have h3 : ((rotN ((6 - k) % 6) (rotN k q))).Perm
        (rotN ((6 - k) % 6) (ptrans δ p)) := rotN_perm h2 _
    rw [rotN_inverse k hk q, rotN_ptrans] at h3
    have h5 : pattern.patternHash (pattern.getAligned q 3) =
        pattern.patternHash (pattern.getAligned (rotN ((6 - k) % 6) p) 3) := by
      have := hashAlign_perm h3
      rwa [getAligned_three_ptrans _ _ (sumT_cellRotN_zero _ δ hδ)] at this
    exact (isEqual_iff q p).mpr ⟨(6 - k) % 6, Nat.mod_lt _ (by omega), Or.inl h5.symm⟩
  · -- the matching transform was a reflected rotation
    have hperm : (pattern.getAligned (pattern.getReflected (rotN k q) 3) 3).Perm
        (pattern.getAligned p 3) := (patternHash_eq_iff _ _).mp hB
    obtain ⟨δ, hδ, h2⟩ := perm_unalign hperm
    -- reflect both sides
    have h3 : (pattern.getReflected (pattern.getReflected (rotN k q) 3) 3).Perm
        (pattern.getReflected (ptrans δ p) 3) := refl_three_perm h2
    rw [getReflected_three_pat_invol, getReflected_three_pat_ptrans] at h3
    -- rotate both sides back
    have h4 : ((rotN ((6 - k) % 6) (rotN k q))).Perm
        (rotN ((6 - k) % 6) (ptrans (δ.getReflected 3) (pattern.getReflected p 3))) :=
      rotN_perm h3 _
    rw [rotN_inverse k hk q, rotN_ptrans] at h4
    obtain ⟨j, hj, hjspec⟩ := rotN_refl_three ((6 - k) % 6)
    rw [hjspec p] at h4
    have hδ2 : sumT (cellRotN ((6 - k) % 6) (δ.getReflected 3)) = 0 := by
      refine sumT_cellRotN_zero _ _ ?_
      rw [sumT_getReflected_three, hδ, neg_zero]
    have h5 : pattern.patternHash (pattern.getAligned q 3) =
        pattern.patternHash (pattern.getAligned
          (pattern.getReflected (rotN j p) 3) 3) := by
      have := hashAlign_perm h4
      rwa [getAligned_three_ptrans _ _ hδ2] at this
    exact (isEqual_iff q p).mpr ⟨j, hj, Or.inr h5.symm⟩

/-! ## Adjacency, signs, and connectivity -/

/-- A cell is well-oriented when its coordinate sum is +1 or −1. -/
def goodT (t : triangle) : Prop := sumT t = 1 ∨ sumT t = -1

/-- All cells of the pattern are well-oriented. -/
def goodP (p : pattern) : Prop := ∀ t ∈ p, goodT t

theorem getNeighbour_one (t : triangle) :
    t.getNeighbour 1 = newTriangle t.x (t.y - (t.x + t.y + t.z)) (t.z - (t.x + t.y + t.z)) := rfl

theorem getNeighbour_two (t : triangle) :
    t.getNeighbour 2 = newTriangle (t.x - (t.x + t.y + t.z)) t.y (t.z - (t.x + t.y + t.z)) := rfl

theorem getNeighbour_three (t : triangle) :
    t.getNeighbour 3 = newTriangle (t.x - (t.x + t.y + t.z)) (t.y - (t.x + t.y + t.z)) t.z := rfl

/-- Stepping across the same edge twice returns to the original cell. -/
theorem getNeighbour_invol (t : triangle) (ax : Int) (hax : ax = 1 ∨ ax = 2 ∨ ax = 3) :
    triangle.getNeighbour (triangle.getNeighbour t ax) ax = t := by
  obtain ⟨tx, ty, tz⟩ := t
  rcases hax with rfl | rfl | rfl <;>
    (simp [getNeighbour_one, getNeighbour_two, getNeighbour_three, newTriangle,
      triangle.mk.injEq] <;> omega)

/-- The neighbour has the opposite coordinate sum. -/
theorem sumT_getNeighbour (t : triangle) (ax : Int) (hax : ax = 1 ∨ ax = 2 ∨ ax = 3) :
    sumT (triangle.getNeighbour t ax) = -sumT t := by
  obtain ⟨tx, ty, tz⟩ := t
  rcases hax with rfl | rfl | rfl <;>
    (simp [getNeighbour_one, getNeighbour_two, getNeighbour_three, newTriangle, sumT] <;> omega)

/-- A zero-sum translation commutes with taking neighbours. -/
theorem getNeighbour_tadd (v t : triangle) (hv : sumT v = 0) (ax : Int)
    (hax : ax = 1 ∨ ax = 2 ∨ ax = 3) :
    triangle.getNeighbour (tadd v t) ax = tadd v (triangle.getNeighbour t ax) := by
  have hz : v.x + v.y + v.z = 0 := hv
  obtain ⟨tx, ty, tz⟩ := t
  obtain ⟨vx, vy, vz⟩ := v
  simp [sumT] at hz
  rcases hax with rfl | rfl | rfl <;>
    (simp [getNeighbour_one, getNeighbour_two, getNeighbour_three, newTriangle, tadd,
      triangle.mk.injEq] <;> omega)

theorem goodT_getRotated (t : triangle) (angle : Int) (h : goodT t) :
    goodT (t.getRotated angle) := by
  rcases h with h | h <;>
  · unfold triangle.getRotated triangle.getRotatedCoords
    unfold sumT at h
    split <;> (unfold goodT sumT; dsimp [newTriangle]; omega)

theorem goodT_getReflected (t : triangle) (axis : Int) (h : goodT t) :
    goodT (t.getReflected axis) := by
  rcases h with h | h <;>
  · unfold triangle.getReflected triangle.getReflectedCoords
    unfold sumT at h
    split <;> (unfold goodT sumT; dsimp [newTriangle]; omega)

theorem goodT_getShifted (t : triangle) (s axis : Int) (h : goodT t) :
    goodT (t.getShifted s axis) := by
  rcases h with h | h <;>
  · unfold triangle.getShifted triangle.getShiftedCoords
    unfold sumT at h
    split <;> (unfold goodT sumT; dsimp [newTriangle]; omega)

theorem goodT_getNeighbour (t : triangle) (ax : Int) (hax : ax = 1 ∨ ax = 2 ∨ ax = 3)
    (h : goodT t) : goodT (triangle.getNeighbour t ax) := by
  rcases h with h | h <;>
    [exact Or.inr (by rw [sumT_getNeighbour t ax hax, h]);
     exact Or.inl (by rw [sumT_getNeighbour t ax hax, h]; ring)]

theorem goodP_ptrans (v : triangle) (hv : sumT v = 0) (p : pattern) (h : goodP p) :
    goodP (ptrans v p) := by
  intro u hu
  obtain ⟨t, ht, rfl⟩ := List.mem_map.mp hu
  have := h t ht
  unfold goodT at this ⊢
  rw [sumT_tadd, hv]
  omega

theorem goodP_getCentered (p : pattern) (h : goodP p) : goodP (pattern.getCentered p) := by
  obtain ⟨v, hv, heq⟩ := getCentered_eq_ptrans p
  rw [heq]
  exact goodP_ptrans v hv p h

theorem Adj_mono {p q : pattern} (hsub : ∀ x ∈ p, x ∈ q) {a b : triangle} (h : Adj p a b) :
    Adj q a b := ⟨hsub b h.1, h.2⟩

theorem connected_singleton (t : triangle) : Connected [t] := by
  intro a ha b hb
  rw [List.mem_singleton] at ha hb
  rw [ha, hb]

theorem connected_append_neighbour (p : pattern) (t : triangle) (ax : Int)
    (hc : Connected p) (ht : t ∈ p) (hax : ax = 1 ∨ ax = 2 ∨ ax = 3) :
    Connected (p ++ [triangle.getNeighbour t ax]) := by
  set nb := triangle.getNeighbour t ax with hnb
  have hmono : ∀ x ∈ p, x ∈ p ++ [nb] := fun x hx => List.mem_append_left _ hx
  have hlift : ∀ a b, Adj p a b →
      Relation.ReflTransGen (Adj (p ++ [nb])) a b :=
    fun a b h => Relation.ReflTransGen.single (Adj_mono hmono h)
  have hreach : ∀ a ∈ p, ∀ b ∈ p, Relation.ReflTransGen (Adj (p ++ [nb])) a b :=
    fun a ha b hb => Relation.ReflTransGen.trans_induction_on (hc a ha b hb)
      (fun _ => Relation.ReflTransGen.refl)
      (fun h => hlift _ _ h)
      (fun _ _ ih1 ih2 => Relation.ReflTransGen.trans ih1 ih2)
  have hstep : Relation.ReflTransGen (Adj (p ++ [nb])) t nb :=
    Relation.ReflTransGen.single
      ⟨List.mem_append_right _ (List.mem_singleton_self nb), ax, hax, rfl⟩
  have hback : Relation.ReflTransGen (Adj (p ++ [nb])) nb t :=
    Relation.ReflTransGen.single
      ⟨List.mem_append_left _ ht, ax, hax, (getNeighbour_invol t ax hax).symm⟩
  intro a ha b hb
  rcases List.mem_append.mp ha with ha' | ha' <;> rcases List.mem_append.mp hb with hb' | hb'
  · exact hreach a ha' b hb'
  · rw [List.mem_singleton] at hb'
    rw [hb']
    exact Relation.ReflTransGen.trans (hreach a ha' t ht) hstep
  · rw [List.mem_singleton] at ha'
    rw [ha']
    exact Relation.ReflTransGen.trans hback (hreach t ht b hb')
  · rw [List.mem_singleton] at ha' hb'
    rw [ha', hb']

theorem Reaches_trans {a b c : pattern} (h1 : Reaches a b) (h2 : Reaches b c) :
    Reaches a c := by
  induction h2 with
  | refl => exact h1
  | step q t ax hr ht hax ih => exact Reaches.step a q t ax ih ht hax

theorem Reaches_connected {p ns : pattern} (h : Reaches p ns) (hc : Connected p) :
    Connected ns := by
  induction h with
  | refl => exact hc
  | step q t ax hr ht hax ih => exact connected_append_neighbour q t ax ih ht hax

theorem Reaches_goodP {p ns : pattern} (h : Reaches p ns) (hg : goodP p) : goodP ns := by
  induction h with
  | refl => exact hg
  | step q t ax hr ht hax ih =>
    intro u hu
    rcases List.mem_append.mp hu with h' | h'
    · exact ih u h'
    · rw [List.mem_singleton] at h'
      rw [h']
      exact goodT_getNeighbour t ax hax (ih t ht)

theorem Reaches_length {p ns : pattern} (h : Reaches p ns) :
    p.length ≤ ns.length := by
  induction h with
  | refl => omega
  | step q t ax hr ht hax ih => simp; omega

theorem connected_ptrans (v : triangle) (hv : sumT v = 0) (p : pattern) (h : Connected p) :
    Connected (ptrans v p) := by
  have hlift : ∀ a b, Adj p a b → Adj (ptrans v p) (tadd v a) (tadd v b) := by
    intro a b hab
    obtain ⟨hb, ax, hax, hnb⟩ := hab
    exact ⟨List.mem_map_of_mem _ hb, ax, hax,
      by rw [hnb, getNeighbour_tadd v a hv ax hax]⟩
  intro a' ha' b' hb'
  obtain ⟨a, ha, rfl⟩ := List.mem_map.mp ha'
  obtain ⟨b, hb, rfl⟩ := List.mem_map.mp hb'
  exact Relation.ReflTransGen.lift (tadd v) hlift (h a ha b hb)

theorem connected_getCentered (p : pattern) (h : Connected p) :
    Connected (pattern.getCentered p) := by
  obtain ⟨v, hv, heq⟩ := getCentered_eq_ptrans p
  rw [heq]
  exact connected_ptrans v hv p h

theorem length_getCentered (p : pattern) : (pattern.getCentered p).length = p.length := by
  obtain ⟨v, hv, heq⟩ := getCentered_eq_ptrans p
  rw [heq]
  exact List.length_map p _

/-! ## Unfolding the enumeration -/

theorem generatePatterns_nil (toAdd : Nat) (pats : List pattern) :
    generatePatterns toAdd [] pats =
      match toAdd with
      | n+2 => generatePatterns (n+1) (pattern.addTriangle [] (newTriangle 0 1 0)) pats
      | _ => pats ++ [pattern.addTriangle [] (newTriangle 0 1 0)] := by
  match toAdd with
  | 0 => rfl
  | 1 => rfl
  | n+2 => rfl

theorem generatePatterns_cons (toAdd : Nat) (t : triangle) (ts : List triangle)
    (pats : List pattern) :
    generatePatterns toAdd (t :: ts) pats =
      (fun (f : pattern → List pattern → List pattern) =>
        if (t :: ts).length ≤ 2 then
          f (pattern.addTriangle (pattern.getCopy (t :: ts))
              (triangle.getNeighbour t ((t :: ts).length : Int))) pats
        else genLoop (t :: ts) f (candList (t :: ts)) pats)
      (match toAdd with
        | n+2 => fun ns ps => generatePatterns (n+1) ns ps
        | _ => fun ns ps => checkAndStore ns ps) := by
  match toAdd with
  | 0 => rfl
  | 1 => rfl
  | n+2 => rfl

theorem foundNewPattern_iff (pats : List pattern) (ns : pattern) :
    foundNewPattern pats ns = true ↔ ∀ q ∈ pats, pattern.isEqual q ns = false := by
  induction pats with
  | nil => simp [foundNewPattern]
  | cons q rest ih =>
    rw [foundNewPattern]
    by_cases h : pattern.isEqual q ns = true
    · rw [if_pos h]
      simp only [List.mem_cons]
      constructor
      · intro hfalse; exact absurd hfalse.symm (by simp)
      · intro hall
        exact absurd (hall q (Or.inl rfl)) (by rw [h]; simp)
    · rw [if_neg h]
      rw [ih]
      simp only [List.mem_cons]
      constructor
      · intro hall r hr
        rcases hr with rfl | hr
        · cases hq : pattern.isEqual r ns
          · rfl
          · exact absurd hq h
        · exact hall r hr
      · intro hall r hr
        exact hall r (Or.inr hr)

theorem checkAndStore_mem (ns : pattern) (pats : List pattern) (q : pattern)
    (h : q ∈ checkAndStore ns pats) : q ∈ pats ∨ q = pattern.getCentered ns := by
  unfold checkAndStore at h
  split at h
  · rcases List.mem_append.mp h with h' | h'
    · exact Or.inl h'
    · exact Or.inr (List.mem_singleton.mp h')
  · exact Or.inl h

/-- Pairwise non-equivalence, in both orders, of the stored patterns. -/
def NE (p q : pattern) : Prop :=
  pattern.isEqual p q = false ∧ pattern.isEqual q p = false

theorem checkAndStore_pairwise (ns : pattern) (pats : List pattern)
    (h : List.Pairwise NE pats) : List.Pairwise NE (checkAndStore ns pats) := by
  unfold checkAndStore
  split
  · next hf =>
    rw [List.pairwise_append]
    refine ⟨h, List.pairwise_singleton _ _, ?_⟩
    intro a ha b hb
    rw [List.mem_singleton] at hb
    subst hb
    have hq : pattern.isEqual a ns = false := (foundNewPattern_iff pats ns).mp hf a ha
    constructor
    · rw [isEqual_centered_right]
      exact hq
    · rw [isEqual_centered_left]
      cases hcontra : pattern.isEqual ns a
      · rfl
      · exact absurd (isEqual_symm hcontra) (by rw [hq]; simp)
  · exact h

theorem genLoop_nil (sketch : pattern) (f : pattern → List pattern → List pattern)
    (pats : List pattern) : genLoop sketch f [] pats = pats := rfl

theorem genLoop_cons (sketch : pattern) (f : pattern → List pattern → List pattern)
    (c : triangle) (rest : List triangle) (pats : List pattern) :
    genLoop sketch f (c :: rest) pats =
      if pattern.contains sketch c then genLoop sketch f rest pats
      else genLoop sketch f rest
        (f (pattern.addTriangle (pattern.getCopy sketch) c) pats) := rfl

theorem genLoop_preserves (Inv : List pattern → Prop) (sketch : pattern)
    (f : pattern → List pattern → List pattern)
    (hf : ∀ c ps, Inv ps → Inv (f (pattern.addTriangle (pattern.getCopy sketch) c) ps)) :
    ∀ (cands : List triangle) (pats : List pattern),
      Inv pats → Inv (genLoop sketch f cands pats) := by
  intro cands
  induction cands with
  | nil => exact fun pats h => h
  | cons c rest ih =>
    intro pats h
    rw [genLoop_cons]
    split
    · exact ih pats h
    · exact ih _ (hf c pats h)

theorem genLoop_spec (sketch : pattern) (f : pattern → List pattern → List pattern)
    (Q : pattern → Prop) :
    ∀ cands : List triangle,
      (∀ c ∈ cands, ∀ ps q, q ∈ f (pattern.addTriangle (pattern.getCopy sketch) c) ps →
        q ∈ ps ∨ Q q) →
      ∀ pats q, q ∈ genLoop sketch f cands pats → q ∈ pats ∨ Q q := by
  intro cands
  induction cands with
  | nil => exact fun _ pats q h => Or.inl h
  | cons c rest ih =>
    intro hf pats q h
    rw [genLoop_cons] at h
    split at h
    · exact ih (fun c' hc' => hf c' (List.mem_cons_of_mem c hc')) pats q h
    · rcases ih (fun c' hc' => hf c' (List.mem_cons_of_mem c hc')) _ q h with h' | h'
      · exact hf c (List.mem_cons_self c rest) pats q h'
      · exact Or.inr h'

theorem candList_mem {sketch : pattern} {c : triangle} (h : c ∈ candList sketch) :
    ∃ t ∈ sketch, ∃ ax : Int, (ax = 1 ∨ ax = 2 ∨ ax = 3) ∧
      c = triangle.getNeighbour t ax := by
  unfold candList at h
  rw [List.mem_flatMap] at h
  obtain ⟨t, ht, hc⟩ := h
  rcases List.mem_cons.mp hc with rfl | hc
  · exact ⟨t, ht, 1, by omega, rfl⟩
  rcases List.mem_cons.mp hc with rfl | hc
  · exact ⟨t, ht, 2, by omega, rfl⟩
  rcases List.mem_cons.mp hc with rfl | hc
  · exact ⟨t, ht, 3, by omega, rfl⟩
  · cases hc

/-! ## The enumeration maintains pairwise non-equivalence -/

theorem generatePatterns_pairwise_aux :
    ∀ (toAdd : Nat) (sketch : pattern) (pats : List pattern), sketch ≠ [] →
      List.Pairwise NE pats → List.Pairwise NE (generatePatterns toAdd sketch pats) := by
  intro toAdd
  induction toAdd using Nat.strong_induction_on with
  | _ toAdd ih =>
    intro sketch pats hsk hp
    match sketch with
    | [] => exact absurd rfl hsk
    | t :: ts =>
      rw [generatePatterns_cons]
      match toAdd with
      | 0 =>
        dsimp only
        split
        · exact checkAndStore_pairwise _ pats hp
        · exact genLoop_preserves _ (t :: ts) _
            (fun c ps h => checkAndStore_pairwise _ ps h) _ pats hp
      | 1 =>
        dsimp only
        split
        · exact checkAndStore_pairwise _ pats hp
        · exact genLoop_preserves _ (t :: ts) _
            (fun c ps h => checkAndStore_pairwise _ ps h) _ pats hp
      | n+2 =>
        dsimp only
        split
        · exact ih (n+1) (by omega) _ pats
            (by simp [pattern.addTriangle, pattern.getCopy]) hp
        · refine genLoop_preserves _ (t :: ts) _ (fun c ps h => ?_) _ pats hp
          exact ih (n+1) (by omega) _ ps
            (by simp [pattern.addTriangle, pattern.getCopy]) h

/-- After any run of the enumerator on a collection with pairwise
non-equivalent members, the collection still has pairwise non-equivalent
members; in particular this holds for the full run from the empty sketch. -/
theorem generatePatterns_pairwise (N : Nat) :
    List.Pairwise NE (generatePatterns N [] []) := by
  rw [generatePatterns_nil]
  match N with
  | 0 => exact List.pairwise_singleton _ _
  | 1 => exact List.pairwise_singleton _ _
  | n+2 =>
    exact generatePatterns_pairwise_aux (n+1) _ []
      (by simp [pattern.addTriangle]) List.Pairwise.nil

/-! ## Provenance of stored patterns -/

theorem generatePatterns_provenance :
    ∀ (toAdd : Nat), 1 ≤ toAdd → ∀ (sketch : pattern) (pats : List pattern), sketch ≠ [] →
      ∀ q ∈ generatePatterns toAdd sketch pats,
        q ∈ pats ∨ ∃ ns, Reaches sketch ns ∧ ns.length = sketch.length + toAdd ∧
          q = pattern.getCentered ns := by
  intro toAdd
  induction toAdd using Nat.strong_induction_on with
  | _ toAdd ih =>
    intro h1 sketch pats hsk q hq
    match sketch with
    | [] => exact absurd rfl hsk
    | t :: ts =>
      rw [generatePatterns_cons] at hq
      match toAdd with
      | 0 => omega
      | 1 =>
        dsimp only at hq
        split at hq
        · next hlen =>
          rcases checkAndStore_mem _ _ _ hq with h | h
          · exact Or.inl h
          · right
            have hax : ((t :: ts).length : Int) = 1 ∨ ((t :: ts).length : Int) = 2 ∨
                ((t :: ts).length : Int) = 3 := by
              simp only [List.length_cons] at hlen ⊢
              omega
            refine ⟨(t :: ts) ++ [triangle.getNeighbour t ((t :: ts).length : Int)],
              Reaches.step _ _ t _ (Reaches.refl _) (List.mem_cons_self t ts) hax, by simp, ?_⟩
            rw [addTriangle_copy] at h
            exact h
        · -- general loop, finalization on every candidate
          have hf : ∀ c ∈ candList (t :: ts), ∀ ps r,
              r ∈ checkAndStore (pattern.addTriangle (pattern.getCopy (t :: ts)) c) ps →
              r ∈ ps ∨ ∃ ns, Reaches (t :: ts) ns ∧ ns.length = (t :: ts).length + 1 ∧
                r = pattern.getCentered ns := by
            intro c hc ps r hr
            rcases checkAndStore_mem _ _ _ hr with h' | h'
            · exact Or.inl h'
            · right
              obtain ⟨u, hu, ax, hax, rfl⟩ := candList_mem hc
              refine ⟨(t :: ts) ++ [triangle.getNeighbour u ax],
                Reaches.step _ _ u ax (Reaches.refl _) hu hax, by simp, ?_⟩
              rw [addTriangle_copy] at h'
              exact h'
          rcases genLoop_spec (t :: ts) _
            (fun q => ∃ ns, Reaches (t :: ts) ns ∧ ns.length = (t :: ts).length + 1 ∧
              q = pattern.getCentered ns)
            (candList (t :: ts)) hf pats q hq with h | h
          · exact Or.inl h
          · exact Or.inr (by
              obtain ⟨ns, hr, hl, hc⟩ := h
              exact ⟨ns, hr, by omega, hc⟩)
      | n+2 =>
        dsimp only at hq
        split at hq
        · next hlen =>
          have hne : pattern.addTriangle (pattern.getCopy (t :: ts))
              (triangle.getNeighbour t ((t :: ts).length : Int)) ≠ [] := by
            simp [pattern.addTriangle, pattern.getCopy]
          rcases ih (n+1) (by omega) (by omega) _ pats hne q hq with h | h
          · exact Or.inl h
          · right
            obtain ⟨ns, hr, hl, hc⟩ := h
            have hax : ((t :: ts).length : Int) = 1 ∨ ((t :: ts).length : Int) = 2 ∨
                ((t :: ts).length : Int) = 3 := by
              simp only [List.length_cons] at hlen ⊢
              omega
            have hstep : Reaches (t :: ts)
                (pattern.addTriangle (pattern.getCopy (t :: ts))
                  (triangle.getNeighbour t ((t :: ts).length : Int))) := by
              rw [addTriangle_copy]
              exact Reaches.step _ _ t _ (Reaches.refl _) (List.mem_cons_self t ts) hax
            refine ⟨ns, Reaches_trans hstep hr, ?_, hc⟩
            rw [hl, addTriangle_copy]
            simp <;> omega
        · have hf : ∀ c ∈ candList (t :: ts), ∀ ps r,
              r ∈ generatePatterns (n+1) (pattern.addTriangle (pattern.getCopy (t :: ts)) c) ps →
              r ∈ ps ∨ ∃ ns, Reaches (t :: ts) ns ∧
                ns.length = (t :: ts).length + (n + 2) ∧
                r = pattern.getCentered ns := by
            intro c hc ps r hr
            have hne : pattern.addTriangle (pattern.getCopy (t :: ts)) c ≠ [] := by
              simp [pattern.addTriangle, pattern.getCopy]
            rcases ih (n+1) (by omega) (by omega) _ ps hne r hr with h' | h'
            · exact Or.inl h'
            · right
              obtain ⟨ns, hr', hl, hcen⟩ := h'
              obtain ⟨u, hu, ax, hax, rfl⟩ := candList_mem hc
              have hstep : Reaches (t :: ts)
                  (pattern.addTriangle (pattern.getCopy (t :: ts))
                    (triangle.getNeighbour u ax)) := by
                rw [addTriangle_copy]
                exact Reaches.step _ _ u ax (Reaches.refl _) hu hax
              refine ⟨ns, Reaches_trans hstep hr', ?_, hcen⟩
              rw [hl, addTriangle_copy]
              simp <;> omega
          rcases genLoop_spec (t :: ts) _
            (fun q => ∃ ns, Reaches (t :: ts) ns ∧
              ns.length = (t :: ts).length + (n + 2) ∧
              q = pattern.getCentered ns)
            (candList (t :: ts)) hf pats q hq with h | h
          · exact Or.inl h
          · exact Or.inr h

/-- Every pattern stored by a full run from the empty sketch with target at
least 2 is the centered form of a sketch grown from the seed cell to exactly
`N` cells. -/
theorem generatePatterns_top (N : Nat) (hN : 2 ≤ N) :
    ∀ q ∈ generatePatterns N [] [],
      ∃ ns, Reaches [newTriangle 0 1 0] ns ∧ ns.length = N ∧
        q = pattern.getCentered ns := by
  intro q hq
  rw [generatePatterns_nil] at hq
  match N, hN with
  | n+2, _ =>
    dsimp only at hq
    have hsk : pattern.addTriangle [] (newTriangle 0 1 0) = [newTriangle 0 1 0] := rfl
    rw [hsk] at hq
    rcases generatePatterns_provenance (n+1) (by omega) [newTriangle 0 1 0] [] (by simp)
      q hq with h | h
    · cases h
    · obtain ⟨ns, hr, hl, hc⟩ := h
      exact ⟨ns, hr, by simp at hl; omega, hc⟩

/-! ## Rotation composition -/

theorem getRotated_zero (t : triangle) : t.getRotated 0 = t := rfl

theorem getRotated_two (t : triangle) :
    t.getRotated 2 = newTriangle t.z t.x t.y := rfl

theorem getRotated_three (t : triangle) :
    t.getRotated 3 = newTriangle (-t.x) (-t.y) (-t.z) := rfl

theorem getRotated_four (t : triangle) :
    t.getRotated 4 = newTriangle t.y t.z t.x := rfl

theorem getRotated_five (t : triangle) :
    t.getRotated 5 = newTriangle (-t.z) (-t.x) (-t.y) := rfl

/-! ## The enumeration only builds well-oriented cells -/

theorem generatePatterns_goodP (N : Nat) : ∀ q ∈ generatePatterns N [] [], goodP q := by
  intro q hq
  have hseed : goodP [newTriangle 0 1 0] := by
    intro t ht
    rw [List.mem_singleton] at ht
    rw [ht]
    exact Or.inl (by decide)
  match N with
  | 0 =>
    rw [generatePatterns_nil] at hq
    dsimp only at hq
    rw [List.nil_append, List.mem_singleton] at hq
    rw [hq]
    exact hseed
  | 1 =>
    rw [generatePatterns_nil] at hq
    dsimp only at hq
    rw [List.nil_append, List.mem_singleton] at hq
    rw [hq]
    exact hseed
  | n+2 =>
    obtain ⟨ns, hr, hl, hc⟩ := generatePatterns_top (n+2) (by omega) q hq
    rw [hc]
    exact goodP_getCentered ns (Reaches_goodP hr hseed)

/-! ## The claims -/

/-- C1 (counterexample): the result collection after `generatePatterns(4, empty)`
does not hold exactly one pattern. -/
theorem c1_counterexample : ¬ ((generatePatterns 4 [] []).length = 1) := by decide

/-- C1 (amended): running the enumeration for target size 4
(`generatePatterns(4, empty pattern)` on an empty collection) leaves exactly
three patterns in the result collection — the three symmetry classes of
connected 4-triangle shapes. -/
theorem c1_size_four_count : (generatePatterns 4 [] []).length = 3 := by decide

/-- The translation alignment exactly as claim C2 words it: first shift the
whole pattern along axis 3 by the pattern's maximum coordinate along axis 2,
then shift that result along axis 2 by the negative of the result's minimum
coordinate along axis 3. -/
def getAlignedAsClaimed (p : pattern) : pattern :=
  let a := pattern.getShifted p (pattern.getMaxCoord p 2) 3
  pattern.getShifted a (-(pattern.getMinCoord a 3)) 2

/-- The alignment steps of claim C2 as the code actually performs them for
`freeAxis = 3`: first shift the whole pattern along axis 2 by the pattern's
maximum coordinate along axis 1, then shift that result along axis 1 by the
negative of the result's minimum coordinate along axis 2. -/
def getAlignedAmendedSpec (p : pattern) : pattern :=
  let a := pattern.getShifted p (pattern.getMaxCoord p 1) 2
  pattern.getShifted a (-(pattern.getMinCoord a 2)) 1

/-- C2 (counterexample): on the single-cell pattern (0,1,0), `getAligned`
with `freeAxis = 3` (as `isEqual` invokes it) does not perform the two steps
the claim describes. -/
theorem c2_counterexample :
    pattern.getAligned [newTriangle 0 1 0] 3 ≠ getAlignedAsClaimed [newTriangle 0 1 0] := by
  decide

/-- C2 (amended): the translation alignment used by `isEqual`
(`getAligned` with `freeAxis = 3`) performs exactly these two dependent steps
on every input pattern: first shift the whole pattern along axis 2 by the
pattern's maximum coordinate along axis 1, then shift that result along
axis 1 by the negative of the result's minimum coordinate along axis 2. -/
theorem c2_alignment_steps : ∀ p : pattern, pattern.getAligned p 3 = getAlignedAmendedSpec p :=
  fun _ => rfl

/-- C3: after `generatePatterns` completes for any target size in the
supported range, no two distinct stored patterns are `isEqual` in either
order. -/
theorem c3_no_duplicates (N : Nat) (h1 : 4 ≤ N) (h2 : N ≤ 16) :
    List.Pairwise (fun p q => pattern.isEqual p q = false ∧ pattern.isEqual q p = false)
      (generatePatterns N [] []) :=
  generatePatterns_pairwise N

/-- C3 witness at the smallest supported size. -/
theorem c3_no_duplicates_witness :
    ((4 : Nat) ≤ 4 ∧ (4 : Nat) ≤ 16) ∧
      List.Pairwise (fun p q => pattern.isEqual p q = false ∧ pattern.isEqual q p = false)
        (generatePatterns 4 [] []) :=
  ⟨by decide, c3_no_duplicates 4 (by decide) (by decide)⟩

/-- C4: for every target size in the supported range, every stored pattern of
the full run holds exactly `N` cells and is connected: every cell reaches
every other by repeatedly stepping to an axis-1/2/3 neighbour inside the
pattern. -/
theorem c4_size_and_connected (N : Nat) (h1 : 4 ≤ N) (h2 : N ≤ 16) :
    ∀ q ∈ generatePatterns N [] [], q.length = N ∧ Connected q := by
  intro q hq
  obtain ⟨ns, hr, hl, hc⟩ := generatePatterns_top N (by omega) q hq
  constructor
  · rw [hc, length_getCentered, hl]
  · rw [hc]
    exact connected_getCentered ns (Reaches_connected hr (connected_singleton _))

/-- C4 witness at the smallest supported size. -/
theorem c4_size_and_connected_witness :
    ((4 : Nat) ≤ 4 ∧ (4 : Nat) ≤ 16) ∧
      ∀ q ∈ generatePatterns 4 [] [], q.length = 4 ∧ Connected q :=
  ⟨by decide, c4_size_and_connected 4 (by decide) (by decide)⟩

/-- C5: alignment removes translation: shifting a pattern by any amount along
any of the three axes does not change the fingerprint of its
`freeAxis = 3` alignment. -/
theorem c5_alignment_translation_invariant (s : pattern) (k axis : Int)
    (hax : axis = 1 ∨ axis = 2 ∨ axis = 3) :
    pattern.patternHash (pattern.getAligned (pattern.getShifted s k axis) 3) =
      pattern.patternHash (pattern.getAligned s 3) := by
  rcases hax with rfl | rfl | rfl
  · rw [pat_getShifted_one, getAligned_three_ptrans _ _ (by dsimp only [sumT]; omega)]
  · rw [pat_getShifted_two, getAligned_three_ptrans _ _ (by dsimp only [sumT]; omega)]
  · rw [pat_getShifted_three, getAligned_three_ptrans _ _ (by dsimp only [sumT]; omega)]

/-- C5 witness on a concrete pattern, shift and axis. -/
theorem c5_alignment_translation_invariant_witness :
    ((1 : Int) = 1 ∨ (1 : Int) = 2 ∨ (1 : Int) = 3) ∧
      pattern.patternHash
        (pattern.getAligned (pattern.getShifted [newTriangle 0 1 0] 2 1) 3) =
        pattern.patternHash (pattern.getAligned [newTriangle 0 1 0] 3) :=
  ⟨by decide, c5_alignment_translation_invariant [newTriangle 0 1 0] 2 1 (by decide)⟩

/-- C6: rotation group closure: rotating a cell by step `i` and then by step
`j` (steps 0..5, step 0 the identity) equals the single rotation by
`(i + j) mod 6`; in particular two unit rotations equal the step-2
rotation. -/
theorem c6_rotation_closure :
    (∀ (t : triangle) (i j : Int), 0 ≤ i → i ≤ 5 → 0 ≤ j → j ≤ 5 →
      (t.getRotated i).getRotated j = t.getRotated ((i + j) % 6)) ∧
    ∀ t : triangle, (t.getRotated 1).getRotated 1 = t.getRotated 2 := by
  constructor
  · intro t i j h0i h5i h0j h5j
    interval_cases i <;> interval_cases j <;>
      (norm_num <;>
        (simp [getRotated_zero, getRotated_one, getRotated_two, getRotated_three,
          getRotated_four, getRotated_five, newTriangle, triangle.mk.injEq]))
  · intro t
    simp [getRotated_one, getRotated_two, newTriangle, triangle.mk.injEq]

/-- C6 witness on a concrete cell and steps. -/
theorem c6_rotation_closure_witness :
    ((0 : Int) ≤ 4 ∧ (4 : Int) ≤ 5 ∧ (0 : Int) ≤ 5 ∧ (5 : Int) ≤ 5) ∧
      ((newTriangle 0 1 0).getRotated 4).getRotated 5 =
        (newTriangle 0 1 0).getRotated ((4 + 5) % 6) :=
  ⟨by decide,
    c6_rotation_closure.1 (newTriangle 0 1 0) 4 5 (by decide) (by decide) (by decide) (by decide)⟩

/-- C7: adjacency is an involution: for a cell of coordinate sum +1 or −1 and
an axis in {1,2,3}, taking the neighbour twice along that axis returns the
original cell. -/
theorem c7_adjacency_involution (c : triangle) (ax : Int)
    (hsum : sumT c = 1 ∨ sumT c = -1) (hax : ax = 1 ∨ ax = 2 ∨ ax = 3) :
    (c.getNeighbour ax).getNeighbour ax = c :=
  getNeighbour_invol c ax hax

/-- C7 witness on the seed cell and axis 2. -/
theorem c7_adjacency_involution_witness :
    ((sumT (newTriangle 0 1 0) = 1 ∨ sumT (newTriangle 0 1 0) = -1) ∧
      ((2 : Int) = 1 ∨ (2 : Int) = 2 ∨ (2 : Int) = 3)) ∧
      (((newTriangle 0 1 0).getNeighbour 2).getNeighbour 2 = newTriangle 0 1 0) :=
  ⟨⟨by decide, by decide⟩,
    c7_adjacency_involution (newTriangle 0 1 0) 2 (by decide) (by decide)⟩

/-- C8: the sign invariant: the seed cell has coordinate sum +1; for a cell of
sum ±1, the neighbour along axis 1, 2 or 3 has the negated sum, while
rotation (any step), reflection (any axis), shifting and copying keep the sum
in {+1, −1}; consequently every cell of every pattern the enumerator stores
has coordinate sum exactly +1 or −1. -/
theorem c8_sign_invariant :
    sumT (newTriangle 0 1 0) = 1 ∧
    (∀ (c : triangle) (ax : Int), goodT c → (ax = 1 ∨ ax = 2 ∨ ax = 3) →
      sumT (c.getNeighbour ax) = -(sumT c)) ∧
    (∀ (c : triangle) (angle : Int), goodT c → goodT (c.getRotated angle)) ∧
    (∀ (c : triangle) (ax : Int), goodT c → goodT (c.getReflected ax)) ∧
    (∀ (c : triangle) (s ax : Int), goodT c → goodT (c.getShifted s ax)) ∧
    (∀ c : triangle, goodT c → goodT c.getCopy) ∧
    (∀ N : Nat, ∀ q ∈ generatePatterns N [] [], goodP q) := by
  refine ⟨by decide, ?_, ?_, ?_, ?_, ?_, ?_⟩
  · exact fun c ax _ hax => sumT_getNeighbour c ax hax
  · exact fun c angle hg => goodT_getRotated c angle hg
  · exact fun c ax hg => goodT_getReflected c ax hg
  · exact fun c s ax hg => goodT_getShifted c s ax hg
  · exact fun c hg => by rw [getCopy_cell]; exact hg
  · exact generatePatterns_goodP

/-- C8 witness: the neighbour of the seed along axis 1 has the negated sum. -/
theorem c8_sign_invariant_witness :
    (goodT (newTriangle 0 1 0) ∧
      ((1 : Int) = 1 ∨ (1 : Int) = 2 ∨ (1 : Int) = 3)) ∧
      sumT ((newTriangle 0 1 0).getNeighbour 1) = -(sumT (newTriangle 0 1 0)) :=
  ⟨⟨Or.inl (by decide), by decide⟩,
    c8_sign_invariant.2.1 (newTriangle 0 1 0) 1 (Or.inl (by decide)) (by decide)⟩

/-- C9: a requested count below `minNumTriangles` or above `maxNumTriangles`
makes the program report the validation error and perform no enumeration;
any count inside the range runs the enumeration — the out-of-range error is
the only failure. -/
theorem c9_validation (n : Int) :
    (n < minNumTriangles ∨ n > maxNumTriangles →
      runMain n = Except.error "Неправильное значение") ∧
    (minNumTriangles ≤ n ∧ n ≤ maxNumTriangles →
      runMain n = Except.ok (generatePatterns n.toNat [] [])) := by
  constructor
  · intro h
    unfold runMain
    rw [if_pos h]
  · intro h
    unfold runMain
    rw [if_neg]
    intro hcon
    unfold minNumTriangles maxNumTriangles at h hcon
    omega

/-- C9 witness: 3 and 20 are rejected with the error message, 4 enumerates. -/
theorem c9_validation_witness :
    runMain 3 = Except.error "Неправильное значение" ∧
    runMain 20 = Except.error "Неправильное значение" ∧
    runMain 4 = Except.ok (generatePatterns (4 : Int).toNat [] []) :=
  ⟨(c9_validation 3).1 (by decide), (c9_validation 20).1 (by decide),
    (c9_validation 4).2 (by decide)⟩

/-- C10: centering preserves the symmetry class: every non-empty pattern is
`isEqual` to its centered form, which is what the deduplication relies on
when comparing candidates against centered stored patterns. -/
theorem c10_centering_preserves_class (p : pattern) (hp : p ≠ []) :
    pattern.isEqual p (pattern.getCentered p) = true := by
  rw [isEqual_centered_right]
  exact isEqual_refl p

/-- C10 witness on the seed pattern. -/
theorem c10_centering_preserves_class_witness :
    ([newTriangle 0 1 0] ≠ ([] : pattern)) ∧
      pattern.isEqual [newTriangle 0 1 0] (pattern.getCentered [newTriangle 0 1 0]) = true :=
  ⟨by decide, c10_centering_preserves_class [newTriangle 0 1 0] (by decide)⟩
